import Mathlib

/-!
Verification of the gdpr-obfuscator streaming record-transform engine.

This file gives a shallow embedding, in Lean 4, of the core of the
`gdpr_obfuscator` Python package:

* `src/gdpr_obfuscator/obfuscator.py` — the tokenizer `obfuscate_value`
  (HMAC-SHA256 based), the orchestrator `obfuscate_stream`, the key lookup
  `_get_key`, and the legacy text-stream shim `obfuscate_csv_stream`;
* `src/gdpr_obfuscator/format_adapters.py` — `CSVAdapter.process_stream`
  (built on the Python stdlib `csv.DictReader` / `csv.DictWriter` with the
  default `excel` dialect), the `JSONAdapter` / `ParquetAdapter` stubs and the
  `get_adapter` dispatcher.

Modelling conventions:

* Bytes are `Nat` values (< 256 where they come from real byte sources).
* Machine words in SHA-256 are `Nat` reduced by `% 2^32` where overflow
  matters.
* Python strings are Lean `String`s; a Python value that may be `None` is an
  `Option`.
* The byte streams handed to `CSVAdapter.process_stream` are wrapped by the
  code in `io.TextIOWrapper(..., encoding="utf-8")` on both sides; the
  Python text codec layer is a bijection between valid text and its UTF-8
  encoding, so the stream contents are modelled at the decoded-text level
  (`List Char`).  Reading through `TextIOWrapper` also performs universal
  newline translation (`\r\n` and lone `\r` become `\n`), which is modelled
  explicitly by `translate`.  On the write side the `csv` writer emits
  `\r\n` line terminators, which (on the POSIX platforms this code targets)
  pass through the wrapper unchanged.
* Exceptions are an explicit `PyErr` error type; a fallible call returns
  `Except PyErr _` together with whatever output was written before the
  failure (the code writes through to the output stream record by record).
-/

namespace GdprObf

/-! ### UTF-8 encoding of strings (Python `str.encode("utf-8")`) -/

/-- UTF-8 encoding of one Unicode scalar value, as a list of byte values. -/
def utf8EncodeChar (c : Char) : List Nat :=
  let n := c.toNat
  if n < 128 then [n]
  else if n < 2048 then [192 + n / 64, 128 + n % 64]
  else if n < 65536 then [224 + n / 4096, 128 + n / 64 % 64, 128 + n % 64]
  else [240 + n / 262144, 128 + n / 4096 % 64, 128 + n / 64 % 64, 128 + n % 64]

/-- Python `s.encode("utf-8")`: the UTF-8 byte sequence of a string. -/
def utf8Encode (s : String) : List Nat :=
  s.data.flatMap utf8EncodeChar

/-! ### SHA-256 (`hashlib.sha256`), on byte lists, words as `Nat % 2^32` -/

/-- Truncation to a 32-bit word. -/
def w32 (x : Nat) : Nat := x % 4294967296

/-- 32-bit right rotation. -/
def rotr (n x : Nat) : Nat := w32 ((x >>> n) ||| (x <<< (32 - n)))

/-- SHA-256 round constants (fractional parts of cube roots of primes). -/
def shaK : List Nat :=
  [1116352408, 1899447441, 3049323471, 3921009573, 961987163,
   1508970993, 2453635748, 2870763221, 3624381080, 310598401,
   607225278, 1426881987, 1925078388, 2162078206, 2614888103,
   3248222580, 3835390401, 4022224774, 264347078, 604807628,
   770255983, 1249150122, 1555081692, 1996064986, 2554220882,
   2821834349, 2952996808, 3210313671, 3336571891, 3584528711,
   113926993, 338241895, 666307205, 773529912, 1294757372,
   1396182291, 1695183700, 1986661051, 2177026350, 2456956037,
   2730485921, 2820302411, 3259730800, 3345764771, 3516065817,
   3600352804, 4094571909, 275423344, 430227734, 506948616,
   659060556, 883997877, 958139571, 1322822218, 1537002063,
   1747873779, 1955562222, 2024104815, 2227730452, 2361852424,
   2428436474, 2756734187, 3204031479, 3329325298]

/-- The eight working variables / hash words of SHA-256. -/
structure Hash8 where
  a : Nat
  b : Nat
  c : Nat
  d : Nat
  e : Nat
  f : Nat
  g : Nat
  h : Nat

/-- SHA-256 initial hash value. -/
def shaH0 : Hash8 :=
  ⟨1779033703, 3144134277, 1013904242, 2773480762,
   1359893119, 2600822924, 528734635, 1541459225⟩

/-- Group a byte list into big-endian 32-bit words (4 bytes per word). -/
def wordsOfBytes : List Nat → List Nat
  | b0 :: b1 :: b2 :: b3 :: t => (((b0 * 256 + b1) * 256 + b2) * 256 + b3) :: wordsOfBytes t
  | _ => []

/-- Message-schedule extension: 16 block words extended to 64. -/
def msgSchedule (block : List Nat) : List Nat :=
  (List.range 48).foldl
    (fun w _ =>
      let l := w.length
      let s0 := rotr 7 (w.getD (l - 15) 0) ^^^ rotr 18 (w.getD (l - 15) 0) ^^^
        ((w.getD (l - 15) 0) >>> 3)
      let s1 := rotr 17 (w.getD (l - 2) 0) ^^^ rotr 19 (w.getD (l - 2) 0) ^^^
        ((w.getD (l - 2) 0) >>> 10)
      w ++ [w32 (w.getD (l - 16) 0 + s0 + w.getD (l - 7) 0 + s1)])
    (wordsOfBytes block)

/-- One step of the SHA-256 compression loop. -/
def shaRound (s : Hash8) (kw : Nat × Nat) : Hash8 :=
  let S1 := rotr 6 s.e ^^^ rotr 11 s.e ^^^ rotr 25 s.e
  let ch := (s.e &&& s.f) ^^^ ((s.e ^^^ 4294967295) &&& s.g)
  let t1 := w32 (s.h + S1 + ch + kw.1 + kw.2)
  let S0 := rotr 2 s.a ^^^ rotr 13 s.a ^^^ rotr 22 s.a
  let mj := (s.a &&& s.b) ^^^ (s.a &&& s.c) ^^^ (s.b &&& s.c)
  let t2 := w32 (S0 + mj)
  ⟨w32 (t1 + t2), s.a, s.b, s.c, w32 (s.d + t1), s.e, s.f, s.g⟩

/-- SHA-256 compression of one 64-byte block into the running hash. -/
def sha256Compress (H : Hash8) (block : List Nat) : Hash8 :=
  let fin := (shaK.zip (msgSchedule block)).foldl shaRound H
  ⟨w32 (H.a + fin.a), w32 (H.b + fin.b), w32 (H.c + fin.c), w32 (H.d + fin.d),
   w32 (H.e + fin.e), w32 (H.f + fin.f), w32 (H.g + fin.g), w32 (H.h + fin.h)⟩

/-- Big-endian 8-byte encoding of a (64-bit) length value. -/
def be64 (n : Nat) : List Nat :=
  [(n >>> 56) % 256, (n >>> 48) % 256, (n >>> 40) % 256, (n >>> 32) % 256,
   (n >>> 24) % 256, (n >>> 16) % 256, (n >>> 8) % 256, n % 256]

/-- SHA-256 padding: append `0x80`, zeros, and the bit length, to a multiple
of 64 bytes. -/
def sha256Pad (msg : List Nat) : List Nat :=
  msg ++ 128 :: List.replicate ((119 - msg.length % 64) % 64) 0 ++ be64 (8 * msg.length)

/-- Split a byte list into 64-byte chunks. -/
def chunks64 : List Nat → List (List Nat)
  | [] => []
  | b :: t => (b :: t.take 63) :: chunks64 (t.drop 63)
termination_by l => l.length
decreasing_by simp; omega

/-- Big-endian byte decomposition of a 32-bit word. -/
def wordBytes (x : Nat) : List Nat :=
  [(x >>> 24) % 256, (x >>> 16) % 256, (x >>> 8) % 256, x % 256]

/-- SHA-256 digest (32 bytes) of a byte list. -/
def sha256 (msg : List Nat) : List Nat :=
  let H := (chunks64 (sha256Pad msg)).foldl sha256Compress shaH0
  wordBytes H.a ++ wordBytes H.b ++ wordBytes H.c ++ wordBytes H.d ++
  wordBytes H.e ++ wordBytes H.f ++ wordBytes H.g ++ wordBytes H.h

/-! ### HMAC (`hmac.new(key, digestmod=hashlib.sha256)`) -/

/-- HMAC-SHA256 of a complete message: the key is hashed if longer than the
64-byte block, zero-padded to 64 bytes, and combined with the
`0x36`/`0x5c` pads. -/
def hmacSha256 (key msg : List Nat) : List Nat :=
  let k0 := if 64 < key.length then sha256 key else key
  let kp := k0 ++ List.replicate (64 - k0.length) 0
  sha256 ((kp.map (fun b => b ^^^ 92)) ++ sha256 ((kp.map (fun b => b ^^^ 54)) ++ msg))

/-- An `hmac.HMAC` object: the key it was created with and the bytes fed to
`update` so far. -/
structure HmacState where
  key : List Nat
  msg : List Nat

/-- Python `hmac.new(key, digestmod=hashlib.sha256)`. -/
def hmacNew (key : List Nat) : HmacState := ⟨key, []⟩

/-- Python `hm.update(chunk)`: appends to the accumulated message. -/
def hmacUpdate (st : HmacState) (chunk : List Nat) : HmacState :=
  ⟨st.key, st.msg ++ chunk⟩

/-- Lowercase hexadecimal digit for a value below 16. -/
def hexChar (n : Nat) : Char :=
  if n < 10 then Char.ofNat (48 + n) else Char.ofNat (87 + n)

/-- Lowercase hexadecimal rendering of a byte list, two digits per byte. -/
def bytesToHex : List Nat → List Char
  | [] => []
  | b :: t => hexChar (b / 16) :: hexChar (b % 16) :: bytesToHex t

/-- Python `hm.hexdigest()` for an HMAC-SHA256 object. -/
def HmacState.hexdigest (st : HmacState) : String :=
  ⟨bytesToHex (hmacSha256 st.key st.msg)⟩

/-- Python string slicing `s[:n]` for a nonnegative bound `n`. -/
def pyStrSlice (s : String) (n : Nat) : String := ⟨s.data.take n⟩

/-! ### Tokenizer: `obfuscate_value` (obfuscator.py lines 28-62)

Python defaults are `length=16`, `mode="token"`, `mask_token="***"`; callers
in this file always pass them explicitly.  `primary_value` is declared `str`
in the source but the CSV adapter passes `None` for a row that is missing the
primary-key column, so it is modelled as `Option String` with `none` for
`None`. -/

/-- Translation of `obfuscate_value`: `mask` mode returns the mask token;
any other mode computes the HMAC token over
`primary_value.encode || b"|" || field_name.encode` via three `update`
calls and truncates the lowercase hex digest to `length` characters. -/
def obfuscate_value (key : List Nat) (primary_value : Option String)
    (field_name : String) (length : Nat) (mode : String) (mask_token : String) :
    String :=
  if mode = "mask" then mask_token
  else
    let pv : String := match primary_value with
      | none => ""
      | some s => s
    let hm := hmacNew key
    let hm := hmacUpdate hm (utf8Encode pv)
    let hm := hmacUpdate hm [124]
    let hm := hmacUpdate hm (utf8Encode field_name)
    pyStrSlice hm.hexdigest length

/-- Modelled from the spec wording for claim C1 (a refinement reference
point, not a translation of the code): the lowercase hexadecimal encoding of
`HMAC-SHA256(key, primary_value_bytes || 0x7C || field_name_bytes)` truncated
to `length` characters. -/
def specTokenOfSpec (key : List Nat) (primary_value : String)
    (field_name : String) (length : Nat) : String :=
  ⟨(bytesToHex (hmacSha256 key
      (utf8Encode primary_value ++ 124 :: utf8Encode field_name))).take length⟩

/-! ### Text layer: universal newlines and the `csv` module (excel dialect)

`CSVAdapter.process_stream` wraps its input in
`TextIOWrapper(input_stream, encoding="utf-8")`; reading through that wrapper
performs universal newline translation, so the `csv.DictReader` underneath
sees `\n` line ends only.  The parser below is the `_csv` reader state
machine for the default `excel` dialect (delimiter `,`, quote char `"`,
`doublequote=True`, `strict=False`, QUOTE_MINIMAL) acting on translated
text; `\r` therefore never reaches it and is treated as an ordinary
character. -/

/-- Universal newline translation performed by reading through a default
`TextIOWrapper`: `\r\n` and a lone `\r` both become `\n`. -/
def translate : List Char → List Char
  | [] => []
  | '\r' :: '\n' :: t => '\n' :: translate t
  | '\r' :: t => '\n' :: translate t
  | c :: t => c :: translate t

/-- States of the `_csv` reader state machine (the ones reachable on
newline-translated input). -/
inductive PState where
  | startRecord
  | startField
  | inField
  | inQuoted
  | quoteInQuoted
deriving DecidableEq

/-- The `_csv` reader state machine (excel dialect, non-strict): `state`,
the field accumulated so far, the fields of the current row so far, and the
remaining input; produces the list of parsed rows.  A blank line yields an
empty row `[]`. -/
def parseAux : PState → List Char → List String → List Char → List (List String)
  | .startRecord, _, _, [] => []
  | .startRecord, _, _, '\n' :: t => [] :: parseAux .startRecord [] [] t
  | .startRecord, _, _, ',' :: t => parseAux .startField [] [""] t
  | .startRecord, _, _, '\"' :: t => parseAux .inQuoted [] [] t
  | .startRecord, _, _, c :: t => parseAux .inField [c] [] t
  | .startField, _, acc, [] => [acc ++ [""]]
  | .startField, _, acc, ',' :: t => parseAux .startField [] (acc ++ [""]) t
  | .startField, _, acc, '\"' :: t => parseAux .inQuoted [] acc t
  | .startField, _, acc, '\n' :: t => (acc ++ [""]) :: parseAux .startRecord [] [] t
  | .startField, _, acc, c :: t => parseAux .inField [c] acc t
  | .inField, cur, acc, [] => [acc ++ [String.mk cur]]
  | .inField, cur, acc, ',' :: t => parseAux .startField [] (acc ++ [String.mk cur]) t
  | .inField, cur, acc, '\n' :: t => (acc ++ [String.mk cur]) :: parseAux .startRecord [] [] t
  | .inField, cur, acc, c :: t => parseAux .inField (cur ++ [c]) acc t
  | .inQuoted, cur, acc, [] => [acc ++ [String.mk cur]]
  | .inQuoted, cur, acc, '\"' :: t => parseAux .quoteInQuoted cur acc t
  | .inQuoted, cur, acc, c :: t => parseAux .inQuoted (cur ++ [c]) acc t
  | .quoteInQuoted, cur, acc, [] => [acc ++ [String.mk cur]]
  | .quoteInQuoted, cur, acc, '\"' :: t => parseAux .inQuoted (cur ++ ['\"']) acc t
  | .quoteInQuoted, cur, acc, ',' :: t => parseAux .startField [] (acc ++ [String.mk cur]) t
  | .quoteInQuoted, cur, acc, '\n' :: t => (acc ++ [String.mk cur]) :: parseAux .startRecord [] [] t
  | .quoteInQuoted, cur, acc, c :: t => parseAux .inField (cur ++ [c]) acc t

/-- All rows produced by `csv.reader` on (already newline-translated)
text. -/
def csvParse (s : List Char) : List (List String) :=
  parseAux .startRecord [] [] s

/-- Does the `excel`/QUOTE_MINIMAL writer quote this field?  Exactly when it
contains the delimiter, the quote char, or a newline character. -/
def needsQuote (f : String) : Bool :=
  f.data.any (fun c => c == ',' || c == '\"' || c == '\r' || c == '\n')

/-- Quote-doubling applied inside a quoted field (`doublequote=True`). -/
def escQuotes : List Char → List Char
  | [] => []
  | c :: t => if c = '\"' then '\"' :: '\"' :: escQuotes t else c :: escQuotes t

/-- Serialization of one field under QUOTE_MINIMAL. -/
def writeField (f : String) : List Char :=
  if needsQuote f then '\"' :: (escQuotes f.data ++ ['\"']) else f.data

/-- Fields joined with the `,` delimiter. -/
def joinFields : List String → List Char
  | [] => []
  | [f] => writeField f
  | f :: fs => writeField f ++ ',' :: joinFields fs

/-- Serialization of one row by `csv.writer` with the given line terminator
(the excel dialect uses `\r\n`).  A single empty field is written as `""` so
that the row is not confused with a blank line. -/
def writeRowWith (eol : List Char) (row : List String) : List Char :=
  if row = [""] then '\"' :: '\"' :: eol else joinFields row ++ eol

/-- The excel dialect line terminator. -/
def crlf : List Char := ['\r', '\n']

/-! ### Python dict model for `DictReader` rows

A `csv.DictReader` row is a dict mapping field names to cell values; a cell
is `None` (`restval`) when the row is shorter than the header.  The dict is
an insertion-ordered association list; inserting an existing key updates it
in place. -/

/-- Ordered association list standing for a Python `dict[str, str | None]`. -/
abbrev PyDict := List (String × Option String)

/-- Python `d[k] = v`: update in place if present, else append. -/
def dictInsert : PyDict → String → Option String → PyDict
  | [], k, v => [(k, v)]
  | (k', v') :: t, k, v =>
    if k' = k then (k', v) :: t else (k', v') :: dictInsert t k v

/-- Python `d[k]` as an option: `some v` when the key is present. -/
def dictGet? : PyDict → String → Option (Option String)
  | [], _ => none
  | (k', v) :: t, k => if k' = k then some v else dictGet? t k

/-- The row dict `DictReader` builds: `dict(zip(fieldnames, row))`, then the
field names beyond the row's length set to `restval = None`.  (Row values
beyond the header's length go to the `None` rest key, tracked separately as
`header.length < raw.length`.) -/
def buildDict (header raw : List String) : PyDict :=
  let zipped := (header.zip raw).foldl (fun d kv => dictInsert d kv.1 (some kv.2)) []
  (List.drop raw.length header).foldl (fun d k => dictInsert d k none) zipped

/-! ### `CSVAdapter.process_stream` (format_adapters.py lines 57-104) -/

/-- The Python exceptions raised by the modelled code. -/
inductive PyErr where
  | valueError (msg : String)
  | notImplementedError (msg : String)
  | runtimeError (msg : String)
deriving DecidableEq

/-- Decidable equality for exception-or-value results. -/
instance {ε α : Type} [DecidableEq ε] [DecidableEq α] : DecidableEq (Except ε α) := fun a b =>
  match a, b with
  | .error x, .error y => if h : x = y then .isTrue (by rw [h]) else .isFalse (by simp [h])
  | .ok x, .ok y => if h : x = y then .isTrue (by rw [h]) else .isFalse (by simp [h])
  | .error _, .ok _ => .isFalse (by simp)
  | .ok _, .error _ => .isFalse (by simp)

/-- The loop body of `process_stream` for one row: replace each sensitive
field present in the row dict by the callback result, recording the calls
made to `obfuscate_fn` in order.  `pkv` is the row's primary-key value. -/
def applySensitive (d : PyDict) (sensitive : List String) (pkv : Option String)
    (fn : Option String → String → String) :
    PyDict × List (Option String × String) :=
  match sensitive with
  | [] => (d, [])
  | f :: fs =>
    match dictGet? d f with
    | some _ =>
      let r := applySensitive (dictInsert d f (some (fn pkv f))) fs pkv fn
      (r.1, (pkv, f) :: r.2)
    | none => applySensitive d fs pkv fn

/-- Outcome for a single data row: the callback invocations it caused, and
either the serialized line written for it or the exception raised by
`DictWriter.writerow`. -/
structure RowResult where
  calls : List (Option String × String)
  outcome : Except PyErr (List Char)
deriving DecidableEq

/-- Processing of one data row: build the row dict, look up the primary-key
value (`row.get(primary_key_field, "")`), obfuscate the sensitive fields
present, then `writer.writerow(row)` — which raises `ValueError` when the
row carried more values than the header (they sit under the `None` rest
key), and otherwise writes the cells in header order with `None` rendered as
the empty string. -/
def processRow (header raw : List String) (sensitive : List String)
    (pk : String) (fn : Option String → String → String) : RowResult :=
  let d := buildDict header raw
  let pkv := (dictGet? d pk).getD (some "")
  let r := applySensitive d sensitive pkv fn
  if header.length < raw.length then
    ⟨r.2, .error (.valueError "dict contains fields not in fieldnames: None")⟩
  else
    ⟨r.2, .ok (writeRowWith crlf
      (header.map (fun k => ((dictGet? r.1 k).getD none).getD "")))⟩

/-- The `for row in reader` loop over the (blank-line-skipped) data rows:
returns the lines written, the callback invocations, and either the record
count or the first exception (which aborts the loop; earlier lines stay
written). -/
def processRows (header : List String) (sensitive : List String) (pk : String)
    (fn : Option String → String → String) :
    List (List String) → List (List Char) × List (Option String × String) × Except PyErr Nat
  | [] => ([], [], .ok 0)
  | raw :: rs =>
    let r := processRow header raw sensitive pk fn
    match r.outcome with
    | .error e => ([], r.calls, .error e)
    | .ok line =>
      let rest := processRows header sensitive pk fn rs
      (line :: rest.1, r.calls ++ rest.2.1,
        match rest.2.2 with
        | .ok n => .ok (n + 1)
        | .error e => .error e)

/-- Result of one adapter `process_stream` call: the chunks written to the
output stream (one `write` per `writerow`, in order), the `obfuscate_fn`
invocations, and the returned record count or the exception raised. -/
structure AdapterResult where
  lines : List (List Char)
  calls : List (Option String × String)
  result : Except PyErr Nat
deriving DecidableEq

/-- All bytes (text) written to the output stream. -/
def AdapterResult.out (r : AdapterResult) : List Char := r.lines.flatten

/-- Translation of `CSVAdapter.process_stream`.  The input byte stream is
read through a UTF-8 `TextIOWrapper` (universal newline translation);
`DictReader.fieldnames` is the first parsed row and `ValueError` is raised
when it is missing or empty; `writer.writeheader()` emits the header line;
blank rows (`row == []`) are skipped by `DictReader`; each data row is
transformed and written through before the next is read. -/
def CSVAdapter.process_stream (input : List Char) (sensitive : List String)
    (pk : String) (fn : Option String → String → String) : AdapterResult :=
  match csvParse (translate input) with
  | [] => ⟨[], [], .error (.valueError "CSV has no header row")⟩
  | header :: rest =>
    if header = [] then ⟨[], [], .error (.valueError "CSV has no header row")⟩
    else
      let dataRows := rest.filter (fun r => !r.isEmpty)
      let r := processRows header sensitive pk fn dataRows
      ⟨writeRowWith crlf header :: r.1, r.2.1, r.2.2⟩

/-- The `NotImplementedError` message of `JSONAdapter.process_stream`. -/
def jsonStubMsg : String :=
  "JSON format support is not yet implemented. Currently only CSV format is supported. See EXTENSION_PLAN.md for implementation details."

/-- The `NotImplementedError` message of `ParquetAdapter.process_stream`. -/
def parquetStubMsg : String :=
  "Parquet format support is not yet implemented. Currently only CSV format is supported. Parquet support requires pyarrow dependency. See EXTENSION_PLAN.md for implementation details."

/-- Translation of `JSONAdapter.process_stream` (also used for the `jsonl`
tag): raises unconditionally before touching either stream. -/
def JSONAdapter.process_stream (_input : List Char) (_sensitive : List String)
    (_pk : String) (_fn : Option String → String → String) : AdapterResult :=
  ⟨[], [], .error (.notImplementedError jsonStubMsg)⟩

/-- Translation of `ParquetAdapter.process_stream`: raises unconditionally
before touching either stream. -/
def ParquetAdapter.process_stream (_input : List Char) (_sensitive : List String)
    (_pk : String) (_fn : Option String → String → String) : AdapterResult :=
  ⟨[], [], .error (.notImplementedError parquetStubMsg)⟩

/-! ### Dispatcher and orchestrator (obfuscator.py lines 18-143) -/

/-- The concrete adapter classes the factory can instantiate. -/
inductive AdapterKind where
  | csv
  | json
  | parquet
deriving DecidableEq

/-- Python `str.lower()` on one character, for the ASCII range that format
tags draw on. -/
def lowerChar (c : Char) : Char :=
  if 65 ≤ c.toNat ∧ c.toNat ≤ 90 then Char.ofNat (c.toNat + 32) else c

/-- Python `file_format.lower()`. -/
def pyLower (s : String) : String := ⟨s.data.map lowerChar⟩

/-- Translation of `get_adapter`: case-insensitive match of the format tag
against the registry; `json` and `jsonl` share the `JSONAdapter`. -/
def get_adapter (file_format : String) : Except PyErr AdapterKind :=
  let l := pyLower file_format
  if l = "csv" then .ok .csv
  else if l = "json" then .ok .json
  else if l = "jsonl" then .ok .json
  else if l = "parquet" then .ok .parquet
  else .error (.valueError ("Unsupported format: \x27" ++ file_format ++
    "\x27. Supported formats: [\x27csv\x27, \x27json\x27, \x27jsonl\x27, \x27parquet\x27]"))

/-- Translation of `_get_key`: the `OBFUSCATOR_KEY` environment value
(`none` when unset; the empty string is also falsy) encoded as UTF-8. -/
def python_get_key (env : Option String) : Except PyErr (List Nat) :=
  match env with
  | some e =>
    if e = "" then
      .error (.runtimeError "Obfuscator key missing. Set OBFUSCATOR_KEY environment variable.")
    else .ok (utf8Encode e)
  | none =>
    .error (.runtimeError "Obfuscator key missing. Set OBFUSCATOR_KEY environment variable.")

/-- Translation of `obfuscate_stream`: resolve the key (argument, else
environment), resolve the adapter, build the tokenizer closure, and delegate
to the adapter.  `env` is the ambient `OBFUSCATOR_KEY` value threaded
explicitly.  Python defaults: `file_format="csv"`, `primary_key_field="id"`,
`key=None`, `mode="token"`, `mask_token="***"`, `token_length=16`. -/
def obfuscate_stream (env : Option String) (input : List Char)
    (sensitive_fields : List String) (file_format : String)
    (primary_key_field : String) (key : Option (List Nat)) (mode : String)
    (mask_token : String) (token_length : Nat) : AdapterResult :=
  let keyRes : Except PyErr (List Nat) := match key with
    | some k => .ok k
    | none => python_get_key env
  match keyRes with
  | .error e => ⟨[], [], .error e⟩
  | .ok k =>
    match get_adapter file_format with
    | .error e => ⟨[], [], .error e⟩
    | .ok kind =>
      let fn := fun pkv field =>
        obfuscate_value k pkv field token_length mode mask_token
      match kind with
      | .csv => CSVAdapter.process_stream input sensitive_fields primary_key_field fn
      | .json => JSONAdapter.process_stream input sensitive_fields primary_key_field fn
      | .parquet => ParquetAdapter.process_stream input sensitive_fields primary_key_field fn

/-- Translation of the legacy shim `obfuscate_csv_stream`: read the caller's
text input whole, run `obfuscate_stream` with `file_format="csv"` on an
in-memory byte buffer, and only on success write the buffer's decoded
content to the caller's text output (an exception propagates before that
write, so the caller's output stream receives nothing).  Returns the text
written to the caller's output stream and the outcome.  The `csv_dialect`
parameter is accepted for backward compatibility and ignored. -/
def obfuscate_csv_stream (env : Option String) (input : List Char)
    (sensitive_fields : List String) (primary_key_field : String)
    (key : Option (List Nat)) (_csv_dialect : String) (mode : String)
    (mask_token : String) (token_length : Nat) : List Char × Except PyErr Unit :=
  let r := obfuscate_stream env input sensitive_fields "csv" primary_key_field
    key mode mask_token token_length
  match r.result with
  | .ok _ => (r.out, .ok ())
  | .error e => ([], .error e)

/-! ### Output-stream effect model (for the frame claim)

`process_stream` touches the caller's output byte stream only through the
`write_through` text wrapper: a sequence of `write`s (one per `writerow`),
a `flush` on the success path, and `detach` in the `finally` block.
`TextIOWrapper.detach` separates the wrapper from the underlying stream
without closing it, so it contributes no operation on the underlying
stream. -/

/-- Operations a file-like object can receive. -/
inductive StreamOp where
  | write (chunk : List Char)
  | flush
  | close
deriving DecidableEq

/-- A byte stream: its accumulated content and whether it has been closed. -/
structure ByteStream where
  data : List Char
  closed : Bool
deriving DecidableEq

/-- Effect of one operation on a stream. -/
def applyOp (st : ByteStream) (op : StreamOp) : ByteStream :=
  match op with
  | .write chunk => { st with data := st.data ++ chunk }
  | .flush => st
  | .close => { st with closed := true }

/-- Effect of a sequence of operations. -/
def runOps (st : ByteStream) (ops : List StreamOp) : ByteStream :=
  ops.foldl applyOp st

/-- The operations `CSVAdapter.process_stream` performs on the underlying
output byte stream: the row writes (through the `write_through` wrapper),
then `flush` on the success path; `detach` in `finally` leaves no trace on
the underlying stream. -/
def csvOutputOps (r : AdapterResult) : List StreamOp :=
  r.lines.map StreamOp.write ++
    match r.result with
    | .ok _ => [.flush]
    | .error _ => []

/-! ### Specification-level descriptions of the row transform

These definitions restate what one processed row must look like, in terms of
positional `zip`s rather than the dict pipeline; the lemmas below prove the
dict pipeline equal to them for duplicate-free headers. -/

/-- The row's cell values keyed positionally by the header: `some` within
the row's length, `none` (Python `None`) for header fields beyond it. -/
def optVals (header raw : List String) : List (Option String) :=
  (raw.map some ++ List.replicate header.length none).take header.length

/-- The primary-key value `row.get(primary_key_field, "")`: the empty string
when the field is not in the header at all, the cell value when the row
covers it, `None` when the header has it but the row is short. -/
def pkValueSpec (header raw : List String) (pk : String) : Option String :=
  if pk ∈ header then (header.zip raw).lookup pk else some ""

/-- The cells written for one transformed row, in header order: a sensitive
field holds the callback result, any other field its original value, with
`None` rendered as the empty string. -/
def transformRowSpec (header raw : List String) (sensitive : List String)
    (pk : String) (fn : Option String → String → String) : List String :=
  (header.zip (optVals header raw)).map (fun kv =>
    if kv.1 ∈ sensitive then fn (pkValueSpec header raw pk) kv.1
    else kv.2.getD "")

/-- The callback invocations one row causes, in order: one per entry of
`sensitive_fields` that names a header field. -/
def rowCallsSpec (header raw : List String) (sensitive : List String)
    (pk : String) : List (Option String × String) :=
  (sensitive.filter (fun f => header.contains f)).map
    (fun f => (pkValueSpec header raw pk, f))

/-- The sixteen lowercase hexadecimal digits. -/
def hexAlphabet : List Char := "0123456789abcdef".data

/-- Whether `needle` occurs contiguously inside `hay` (Python `in` on
strings). -/
def hasSub (needle : List Char) : List Char → Bool
  | [] => needle.isEmpty
  | c :: t => needle.isPrefixOf (c :: t) || hasSub needle t

/-! ## Lemmas and claim theorems -/

/-- A `String` is its character list. -/
theorem string_mk_data (f : String) : (⟨f.data⟩ : String) = f := by
  cases f
  rfl

/-- Newline translation of a non-`\r` head passes it through. -/
theorem translate_cons_ne (c : Char) (t : List Char) (h : c ≠ '\r') :
    translate (c :: t) = c :: translate t := by
  cases t with
  | nil => simp [translate, h]
  | cons c2 t2 => simp [translate, h]

/-- Newline translation collapses `\r\n`. -/
theorem translate_crlf (t : List Char) :
    translate ('\r' :: '\n' :: t) = '\n' :: translate t := rfl

/-- Newline translation rewrites a lone `\r`. -/
theorem translate_cr (c : Char) (t : List Char) (h : c ≠ '\n') :
    translate ('\r' :: c :: t) = '\n' :: translate (c :: t) := by
  simp [translate, h]

/-- Newline translation rewrites a final `\r`. -/
theorem translate_cr_nil : translate ['\r'] = ['\n'] := rfl

/-- Newline translation passes an `\r`-free prefix through unchanged. -/
theorem translate_ord (xs b : List Char) (h : '\r' ∉ xs) :
    translate (xs ++ b) = xs ++ translate b := by
  induction xs with
  | nil => rfl
  | cons c t ih =>
    have hc : c ≠ '\r' := fun hc2 => h (by simp [hc2])
    rw [List.cons_append, translate_cons_ne c _ hc, ih (fun hm => h (by simp [hm]))]
    simp

/-- Newline translation is the identity on `\r`-free text. -/
theorem translate_id (xs : List Char) (h : '\r' ∉ xs) : translate xs = xs := by
  have h2 := translate_ord xs [] h
  simpa [translate] using h2

/-- Newline translation never emits `\r`. -/
theorem translate_no_cr (s : List Char) : '\r' ∉ translate s := by
  induction s using translate.induct with
  | case1 => simp [translate]
  | case2 t ih => rw [translate_crlf]; simp [ih]
  | case3 t h ih =>
    cases t with
    | nil => rw [translate_cr_nil]; decide
    | cons c t2 =>
      have hc : c ≠ '\n' := fun hc2 => h t2 (by rw [hc2])
      rw [translate_cr c t2 hc]
      simp [ih]
  | case4 c t h1 h2 ih =>
    have hc : c ≠ '\r' := h2
    rw [translate_cons_ne c t hc]
    simp only [List.mem_cons, not_or]
    exact ⟨fun hc2 => hc hc2.symm, ih⟩

/-- Quote doubling commutes with newline translation when followed by a
closing quote. -/
theorem translate_escQuotes (fcs rest : List Char) :
    translate (escQuotes fcs ++ '\"' :: rest) =
      escQuotes (translate fcs) ++ '\"' :: translate rest := by
  induction fcs using translate.induct with
  | case1 =>
    show translate ('\"' :: rest) = '\"' :: translate rest
    exact translate_cons_ne _ _ (by decide)
  | case2 t ih =>
    have he : escQuotes ('\r' :: '\n' :: t) = '\r' :: '\n' :: escQuotes t := by
      simp [escQuotes]
    rw [he, translate_crlf]
    show translate ('\r' :: '\n' :: (escQuotes t ++ '\"' :: rest)) = _
    rw [translate_crlf, ih]
    simp [escQuotes]
  | case3 t h ih =>
    cases t with
    | nil =>
      show translate ('\r' :: '\"' :: rest) = escQuotes (translate ['\r']) ++ '\"' :: translate rest
      rw [translate_cr _ _ (by decide), translate_cons_ne _ _ (by decide), translate_cr_nil]
      simp [escQuotes]
    | cons c t2 =>
      have hc : c ≠ '\n' := fun hc2 => h t2 (by rw [hc2])
      have hhead : ∃ e1 etl, escQuotes (c :: t2) = e1 :: etl ∧ e1 ≠ '\n' := by
        by_cases hq : c = '\"'
        · exact ⟨'\"', '\"' :: escQuotes t2, by simp [escQuotes, hq], by decide⟩
        · exact ⟨c, escQuotes t2, by simp [escQuotes, hq], hc⟩
      obtain ⟨e1, etl, he, hne⟩ := hhead
      have he0 : escQuotes ('\r' :: c :: t2) = '\r' :: escQuotes (c :: t2) := by
        simp [escQuotes]
      have hL : translate (escQuotes ('\r' :: c :: t2) ++ '\"' :: rest)
          = '\n' :: translate (escQuotes (c :: t2) ++ '\"' :: rest) := by
        rw [he0, List.cons_append, he, List.cons_append, translate_cr _ _ hne,
          ← List.cons_append, ← he]
      rw [hL, ih, translate_cr c t2 hc]
      simp [escQuotes]
  | case4 c t h1 h2 ih =>
    have hc : c ≠ '\r' := h2
    rw [translate_cons_ne c t hc]
    by_cases hq : c = '\"'
    · subst hq
      have he : escQuotes ('\"' :: t) = '\"' :: '\"' :: escQuotes t := by simp [escQuotes]
      rw [he]
      show translate ('\"' :: ('\"' :: (escQuotes t ++ '\"' :: rest))) = _
      rw [translate_cons_ne _ _ (by decide), translate_cons_ne _ _ (by decide), ih]
      simp [escQuotes]
    · have he : escQuotes (c :: t) = c :: escQuotes t := by simp [escQuotes, hq]
      rw [he]
      show translate (c :: (escQuotes t ++ '\"' :: rest)) = _
      rw [translate_cons_ne _ _ hc, ih]
      simp [escQuotes, hq]

/-- Newline translation preserves membership of characters other than the
newline pair. -/
theorem mem_translate_other (c : Char) (hc1 : c ≠ '\r') (hc2 : c ≠ '\n') :
    ∀ s : List Char, c ∈ translate s ↔ c ∈ s := by
  intro s
  induction s using translate.induct with
  | case1 => simp [translate]
  | case2 t ih => rw [translate_crlf]; simp [ih, hc1, hc2]
  | case3 t h ih =>
    cases t with
    | nil => rw [translate_cr_nil]; simp [hc1, hc2]
    | cons c2 t2 =>
      have hcc : c2 ≠ '\n' := fun hcc2 => h t2 (by rw [hcc2])
      rw [translate_cr c2 t2 hcc]
      simp [ih, hc1, hc2]
  | case4 c2 t h1 h2 ih =>
    rw [translate_cons_ne c2 t h2]
    simp [ih]

/-- A translated text holds `\n` exactly where the original held `\n` or
`\r`. -/
theorem mem_translate_nl :
    ∀ s : List Char, '\n' ∈ translate s ↔ ('\n' ∈ s ∨ '\r' ∈ s) := by
  intro s
  induction s using translate.induct with
  | case1 => simp [translate]
  | case2 t ih => rw [translate_crlf]; simp
  | case3 t h ih =>
    cases t with
    | nil => rw [translate_cr_nil]; simp
    | cons c2 t2 =>
      have hcc : c2 ≠ '\n' := fun hcc2 => h t2 (by rw [hcc2])
      rw [translate_cr c2 t2 hcc]
      simp
  | case4 c2 t h1 h2 ih =>
    rw [translate_cons_ne c2 t h2]
    simp only [List.mem_cons, ih]
    constructor
    · rintro (hc | hc | hc)
      · exact Or.inl (Or.inl hc)
      · exact Or.inl (Or.inr hc)
      · exact Or.inr (Or.inr hc)
    · rintro ((hc | hc) | hc | hc)
      · exact Or.inl hc
      · exact Or.inr (Or.inl hc)
      · exact absurd hc.symm h2
      · exact Or.inr (Or.inr hc)

/-- Newline translation does not change whether a field needs quoting. -/
theorem needsQuote_translate (l : List Char) :
    needsQuote ⟨translate l⟩ = needsQuote ⟨l⟩ := by
  simp only [needsQuote]
  rw [Bool.eq_iff_iff]
  simp only [List.any_eq_true, Bool.or_eq_true, beq_iff_eq]
  constructor
  · rintro ⟨c, hc, hor⟩
    rcases hor with ((rfl | rfl) | rfl) | rfl
    · exact ⟨',', (mem_translate_other ',' (by decide) (by decide) l).mp hc,
        by simp⟩
    · exact ⟨'\"', (mem_translate_other '\"' (by decide) (by decide) l).mp hc,
        by simp⟩
    · exact absurd hc (translate_no_cr l)
    · rcases (mem_translate_nl l).mp hc with hm | hm
      · exact ⟨'\n', hm, by simp⟩
      · exact ⟨'\r', hm, by simp⟩
  · rintro ⟨c, hc, hor⟩
    rcases hor with ((rfl | rfl) | rfl) | rfl
    · exact ⟨',', (mem_translate_other ',' (by decide) (by decide) l).mpr hc,
        by simp⟩
    · exact ⟨'\"', (mem_translate_other '\"' (by decide) (by decide) l).mpr hc,
        by simp⟩
    · exact ⟨'\n', (mem_translate_nl l).mpr (Or.inr hc), by simp⟩
    · exact ⟨'\n', (mem_translate_nl l).mpr (Or.inl hc), by simp⟩

/-- Newline translation maps nothing to the empty text. -/
theorem translate_eq_nil (l : List Char) : translate l = [] ↔ l = [] := by
  constructor
  · intro h
    cases l with
    | nil => rfl
    | cons c t =>
      by_cases hc : c = '\r'
      · subst hc
        cases t with
        | nil => rw [translate_cr_nil] at h; cases h
        | cons c2 t2 =>
          by_cases hc2 : c2 = '\n'
          · subst hc2; rw [translate_crlf] at h; cases h
          · rw [translate_cr c2 t2 hc2] at h; cases h
      · rw [translate_cons_ne c t hc] at h; cases h
  · intro h
    rw [h]
    rfl

/-- An unquoted field contains none of the characters special to the
writer. -/
theorem not_needsQuote_mem (f : String) (hq : needsQuote f = false) :
    ∀ c ∈ f.data, c ≠ ',' ∧ c ≠ '\"' ∧ c ≠ '\r' ∧ c ≠ '\n' := by
  intro c hc
  have key : ∀ x : Char, c = x → (x = ',' ∨ x = '\"' ∨ x = '\r' ∨ x = '\n') → False := by
    intro x hx hor
    have ht : needsQuote f = true := by
      simp only [needsQuote, List.any_eq_true]
      refine ⟨c, hc, ?_⟩
      subst hx
      rcases hor with rfl | rfl | rfl | rfl <;> simp
    rw [hq] at ht
    cases ht
  exact ⟨fun h => key ',' h (by simp), fun h => key '\"' h (by simp),
    fun h => key '\r' h (by simp), fun h => key '\n' h (by simp)⟩

/-- Newline translation of a serialized field is the serialization of the
translated field, for any continuation. -/
theorem translate_writeField (f : String) (cont : List Char) :
    translate (writeField f ++ cont) =
      writeField ⟨translate f.data⟩ ++ translate cont := by
  by_cases hq : needsQuote f = true
  · have hq2 : needsQuote (⟨translate f.data⟩ : String) = true := by
      rw [needsQuote_translate]
      exact hq
    rw [writeField, if_pos hq, writeField, if_pos hq2]
    show translate ('\"' :: ((escQuotes f.data ++ ['\"']) ++ cont)) = _
    rw [translate_cons_ne _ _ (by decide)]
    rw [show ((escQuotes f.data ++ ['\"']) ++ cont) = escQuotes f.data ++ '\"' :: cont
      from by simp]
    rw [translate_escQuotes]
    simp
  · have hqf : needsQuote f = false := by
      cases hnq : needsQuote f
      · rfl
      · exact absurd hnq hq
    have hnr : '\r' ∉ f.data := by
      intro hm
      exact (not_needsQuote_mem f hqf '\r' hm).2.2.1 rfl
    have hid : translate f.data = f.data := translate_id _ hnr
    have hq2 : needsQuote (⟨translate f.data⟩ : String) = false := by
      rw [needsQuote_translate]
      exact hqf
    rw [writeField, if_neg hq, writeField, if_neg (by rw [hq2]; exact Bool.false_ne_true)]
    show translate (f.data ++ cont) = (⟨translate f.data⟩ : String).data ++ translate cont
    rw [translate_ord _ _ hnr]
    rw [show ((⟨translate f.data⟩ : String).data) = translate f.data from rfl, hid]

/-- Newline translation of joined fields followed by the `\r\n` terminator. -/
theorem translate_joinFields (row : List String) (rest : List Char) :
    translate (joinFields row ++ '\r' :: '\n' :: rest) =
      joinFields (row.map (fun f => (⟨translate f.data⟩ : String))) ++
        '\n' :: translate rest := by
  induction row with
  | nil =>
    show translate ('\r' :: '\n' :: rest) = '\n' :: translate rest
    exact translate_crlf rest
  | cons f t ih =>
    cases t with
    | nil =>
      show translate (writeField f ++ '\r' :: '\n' :: rest) = _
      rw [translate_writeField f ('\r' :: '\n' :: rest), translate_crlf]
      rfl
    | cons f2 t2 =>
      show translate (((writeField f ++ ',' :: joinFields (f2 :: t2))) ++ '\r' :: '\n' :: rest)
        = _
      rw [show ((writeField f ++ ',' :: joinFields (f2 :: t2)) ++ '\r' :: '\n' :: rest)
        = writeField f ++ ',' :: (joinFields (f2 :: t2) ++ '\r' :: '\n' :: rest) from by simp]
      rw [translate_writeField f _, translate_cons_ne _ _ (by decide), ih]
      simp [joinFields]

/-- Newline translation of one serialized `\r\n`-terminated row is the
`\n`-terminated serialization of the translated row. -/
theorem translate_writeRow (row : List String) (rest : List Char) :
    translate (writeRowWith crlf row ++ rest) =
      writeRowWith ['\n'] (row.map (fun f => (⟨translate f.data⟩ : String))) ++
        translate rest := by
  by_cases hsp : row = [""]
  · subst hsp
    show translate ('\"' :: '\"' :: '\r' :: '\n' :: rest) = _
    rw [translate_cons_ne _ _ (by decide), translate_cons_ne _ _ (by decide),
      translate_crlf]
    rfl
  · have hmap : row.map (fun f => (⟨translate f.data⟩ : String)) ≠ [""] := by
      intro hm
      apply hsp
      cases row with
      | nil => cases hm
      | cons f t =>
        cases t with
        | nil =>
          simp only [List.map_cons, List.map_nil, List.cons.injEq, and_true] at hm
          have hd : translate f.data = [] := by
            have := congrArg String.data hm
            simpa using this
          have hfd : f.data = [] := (translate_eq_nil _).mp hd
          rw [show ("" : String) = ⟨[]⟩ from rfl, ← hfd, string_mk_data]
        | cons g t2 => simp at hm
    rw [writeRowWith, if_neg hsp, writeRowWith, if_neg hmap]
    rw [show ((joinFields row ++ crlf) ++ rest) = joinFields row ++ '\r' :: '\n' :: rest
      from by simp [crlf]]
    rw [translate_joinFields]
    simp

/-- Newline translation of a block of serialized rows. -/
theorem translate_writeAll (rows : List (List String)) :
    translate ((rows.map (writeRowWith crlf)).flatten) =
      ((rows.map (fun row => writeRowWith ['\n']
        (row.map (fun f => (⟨translate f.data⟩ : String))))).flatten) := by
  induction rows with
  | nil => rfl
  | cons r rs ih =>
    show translate (writeRowWith crlf r ++ (rs.map (writeRowWith crlf)).flatten) = _
    rw [translate_writeRow, ih]
    rfl

/-- One emitted row of the parser: fields are the accumulated ones plus the
current field. -/
theorem emit_no_cr (acc : List String) (cur : List Char)
    (hcur : '\r' ∉ cur) (hacc : ∀ g ∈ acc, '\r' ∉ g.data) :
    ∀ f ∈ acc ++ [String.mk cur], '\r' ∉ f.data := by
  intro f hf
  rcases List.mem_append.mp hf with h | h
  · exact hacc f h
  · simp only [List.mem_singleton] at h
    subst h
    exact hcur

/-- Fields parsed from `\r`-free text are `\r`-free: the parser only moves
input characters (and the quote character) into fields. -/
theorem parseAux_no_cr : ∀ (st : PState) (cur : List Char) (acc : List String)
    (s : List Char), '\r' ∉ s → '\r' ∉ cur → (∀ g ∈ acc, '\r' ∉ g.data) →
    ∀ row ∈ parseAux st cur acc s, ∀ f ∈ row, '\r' ∉ f.data
  | .startRecord, _, _, [], _, _, _ => by simp [parseAux]
  | .startField, cur, acc, [], _, hcur, hacc => by
    simp only [parseAux]
    intro row hrow
    simp only [List.mem_singleton] at hrow
    subst hrow
    exact emit_no_cr acc [] (by simp) hacc
  | .inField, cur, acc, [], _, hcur, hacc => by
    simp only [parseAux]
    intro row hrow
    simp only [List.mem_singleton] at hrow
    subst hrow
    exact emit_no_cr acc cur hcur hacc
  | .inQuoted, cur, acc, [], _, hcur, hacc => by
    simp only [parseAux]
    intro row hrow
    simp only [List.mem_singleton] at hrow
    subst hrow
    exact emit_no_cr acc cur hcur hacc
  | .quoteInQuoted, cur, acc, [], _, hcur, hacc => by
    simp only [parseAux]
    intro row hrow
    simp only [List.mem_singleton] at hrow
    subst hrow
    exact emit_no_cr acc cur hcur hacc
  | .startRecord, cur, acc, c :: t, hs, hcur, hacc => by
    have hst : '\r' ∉ t := fun hm => hs (List.mem_cons.mpr (Or.inr hm))
    have hsc : '\r' ≠ c := fun hm => hs (List.mem_cons.mpr (Or.inl hm))
    by_cases h1 : c = '\n'
    · subst h1
      simp only [parseAux]
      intro row hrow
      rcases List.mem_cons.mp hrow with rfl | hrow2
      · simp
      · exact parseAux_no_cr _ _ _ t hst (by simp) (by simp) row hrow2
    · by_cases h2 : c = ','
      · subst h2
        simp only [parseAux]
        exact parseAux_no_cr _ _ _ t hst (by simp)
          (by intro g hg; simp only [List.mem_singleton] at hg; subst hg; simp)
      · by_cases h3 : c = '\"'
        · subst h3
          simp only [parseAux]
          exact parseAux_no_cr _ _ _ t hst (by simp) (by simp)
        · have hred : parseAux .startRecord cur acc (c :: t)
              = parseAux .inField [c] [] t := by
            simp [parseAux, h1, h2, h3]
          rw [hred]
          exact parseAux_no_cr _ _ _ t hst
            (by intro hm; simp only [List.mem_singleton] at hm; exact hsc hm)
            (by simp)
  | .startField, cur, acc, c :: t, hs, hcur, hacc => by
    have hst : '\r' ∉ t := fun hm => hs (List.mem_cons.mpr (Or.inr hm))
    have hsc : '\r' ≠ c := fun hm => hs (List.mem_cons.mpr (Or.inl hm))
    by_cases h1 : c = ','
    · subst h1
      simp only [parseAux]
      exact parseAux_no_cr _ _ _ t hst (by simp)
        (by intro g hg
            rcases List.mem_append.mp hg with h | h
            · exact hacc g h
            · simp only [List.mem_singleton] at h; subst h; simp)
    · by_cases h2 : c = '\"'
      · subst h2
        simp only [parseAux]
        exact parseAux_no_cr _ _ _ t hst (by simp) hacc
      · by_cases h3 : c = '\n'
        · subst h3
          simp only [parseAux]
          intro row hrow
          rcases List.mem_cons.mp hrow with rfl | hrow2
          · exact emit_no_cr acc [] (by simp) hacc
          · exact parseAux_no_cr _ _ _ t hst (by simp) (by simp) row hrow2
        · have hred : parseAux .startField cur acc (c :: t)
              = parseAux .inField [c] acc t := by
            simp [parseAux, h1, h2, h3]
          rw [hred]
          exact parseAux_no_cr _ _ _ t hst
            (by intro hm; simp only [List.mem_singleton] at hm; exact hsc hm) hacc
  | .inField, cur, acc, c :: t, hs, hcur, hacc => by
    have hst : '\r' ∉ t := fun hm => hs (List.mem_cons.mpr (Or.inr hm))
    have hsc : '\r' ≠ c := fun hm => hs (List.mem_cons.mpr (Or.inl hm))
    by_cases h1 : c = ','
    · subst h1
      simp only [parseAux]
      exact parseAux_no_cr _ _ _ t hst (by simp)
        (fun g hg => emit_no_cr acc cur hcur hacc g hg)
    · by_cases h2 : c = '\n'
      · subst h2
        simp only [parseAux]
        intro row hrow
        rcases List.mem_cons.mp hrow with rfl | hrow2
        · exact emit_no_cr acc cur hcur hacc
        · exact parseAux_no_cr _ _ _ t hst (by simp) (by simp) row hrow2
      · have hred : parseAux .inField cur acc (c :: t)
            = parseAux .inField (cur ++ [c]) acc t := by
          simp [parseAux, h1, h2]
        rw [hred]
        exact parseAux_no_cr _ _ _ t hst
          (by intro hm
              rcases List.mem_append.mp hm with h | h
              · exact hcur h
              · simp only [List.mem_singleton] at h; exact hsc h) hacc
  | .inQuoted, cur, acc, c :: t, hs, hcur, hacc => by
    have hst : '\r' ∉ t := fun hm => hs (List.mem_cons.mpr (Or.inr hm))
    have hsc : '\r' ≠ c := fun hm => hs (List.mem_cons.mpr (Or.inl hm))
    by_cases h1 : c = '\"'
    · subst h1
      simp only [parseAux]
      exact parseAux_no_cr _ _ _ t hst hcur hacc
    · have hred : parseAux .inQuoted cur acc (c :: t)
          = parseAux .inQuoted (cur ++ [c]) acc t := by
        simp [parseAux, h1]
      rw [hred]
      exact parseAux_no_cr _ _ _ t hst
        (by intro hm
            rcases List.mem_append.mp hm with h | h
            · exact hcur h
            · simp only [List.mem_singleton] at h; exact hsc h) hacc
  | .quoteInQuoted, cur, acc, c :: t, hs, hcur, hacc => by
    have hst : '\r' ∉ t := fun hm => hs (List.mem_cons.mpr (Or.inr hm))
    have hsc : '\r' ≠ c := fun hm => hs (List.mem_cons.mpr (Or.inl hm))
    by_cases h1 : c = '\"'
    · subst h1
      simp only [parseAux]
      exact parseAux_no_cr _ _ _ t hst
        (by intro hm
            rcases List.mem_append.mp hm with h | h
            · exact hcur h
            · simp only [List.mem_singleton] at h; cases h) hacc
    · by_cases h2 : c = ','
      · subst h2
        simp only [parseAux]
        exact parseAux_no_cr _ _ _ t hst (by simp)
          (fun g hg => emit_no_cr acc cur hcur hacc g hg)
      · by_cases h3 : c = '\n'
        · subst h3
          simp only [parseAux]
          intro row hrow
          rcases List.mem_cons.mp hrow with rfl | hrow2
          · exact emit_no_cr acc cur hcur hacc
          · exact parseAux_no_cr _ _ _ t hst (by simp) (by simp) row hrow2
        · have hred : parseAux .quoteInQuoted cur acc (c :: t)
              = parseAux .inField (cur ++ [c]) acc t := by
            simp [parseAux, h1, h2, h3]
          rw [hred]
          exact parseAux_no_cr _ _ _ t hst
            (by intro hm
                rcases List.mem_append.mp hm with h | h
                · exact hcur h
                · simp only [List.mem_singleton] at h; exact hsc h) hacc

/-- The parser accumulates ordinary characters into the current field. -/
theorem parseAux_inField_ord : ∀ (cs : List Char), (∀ c ∈ cs, c ≠ ',' ∧ c ≠ '\n') →
    ∀ (cur : List Char) (acc : List String) (rest : List Char),
    parseAux .inField cur acc (cs ++ rest) = parseAux .inField (cur ++ cs) acc rest
  | [], _, cur, acc, rest => by simp
  | c :: t, hord, cur, acc, rest => by
    obtain ⟨h1, h2⟩ := hord c (by simp)
    have hstep : parseAux .inField cur acc ((c :: t) ++ rest)
        = parseAux .inField (cur ++ [c]) acc (t ++ rest) := by
      simp [parseAux, h1, h2]
    rw [hstep,
      parseAux_inField_ord t (fun x hx => hord x (by simp [hx])) (cur ++ [c]) acc rest]
    simp

/-- The parser undoes quote doubling inside a quoted field. -/
theorem parseAux_inQuoted_esc : ∀ (fcs : List Char) (cur : List Char)
    (acc : List String) (rest : List Char),
    parseAux .inQuoted cur acc (escQuotes fcs ++ '\"' :: rest)
      = parseAux .quoteInQuoted (cur ++ fcs) acc rest
  | [], cur, acc, rest => by
    show parseAux .quoteInQuoted cur acc rest = parseAux .quoteInQuoted (cur ++ []) acc rest
    simp
  | c :: t, cur, acc, rest => by
    by_cases hq : c = '\"'
    · subst hq
      have he : escQuotes ('\"' :: t) = '\"' :: '\"' :: escQuotes t := by simp [escQuotes]
      rw [he]
      have hstep : parseAux .inQuoted cur acc
          (('\"' :: '\"' :: escQuotes t) ++ '\"' :: rest)
          = parseAux .inQuoted (cur ++ ['\"']) acc (escQuotes t ++ '\"' :: rest) := rfl
      rw [hstep, parseAux_inQuoted_esc t (cur ++ ['\"']) acc rest]
      simp
    · have he : escQuotes (c :: t) = c :: escQuotes t := by simp [escQuotes, hq]
      rw [he]
      have hstep : parseAux .inQuoted cur acc ((c :: escQuotes t) ++ '\"' :: rest)
          = parseAux .inQuoted (cur ++ [c]) acc (escQuotes t ++ '\"' :: rest) := by
        simp [parseAux, hq]
      rw [hstep, parseAux_inQuoted_esc t (cur ++ [c]) acc rest]
      simp

/-- Parsing a serialized field followed by a comma closes the field. -/
theorem parseAux_field_comma (f : String) (acc : List String) (rest : List Char) :
    parseAux .startField [] acc (writeField f ++ ',' :: rest)
      = parseAux .startField [] (acc ++ [f]) rest := by
  by_cases hq : needsQuote f = true
  · rw [writeField, if_pos hq]
    rw [show (('\"' :: (escQuotes f.data ++ ['\"'])) ++ ',' :: rest)
      = '\"' :: (escQuotes f.data ++ '\"' :: ',' :: rest) from by simp]
    have hstep : parseAux .startField [] acc
        ('\"' :: (escQuotes f.data ++ '\"' :: ',' :: rest))
        = parseAux .inQuoted [] acc (escQuotes f.data ++ '\"' :: ',' :: rest) := rfl
    rw [hstep, parseAux_inQuoted_esc f.data [] acc (',' :: rest)]
    have hstep2 : parseAux .quoteInQuoted ([] ++ f.data) acc (',' :: rest)
        = parseAux .startField [] (acc ++ [String.mk ([] ++ f.data)]) rest := rfl
    rw [hstep2]
    rw [show String.mk ([] ++ f.data) = f from by simp [string_mk_data]]
  · have hqf : needsQuote f = false := by
      cases h : needsQuote f
      · rfl
      · exact absurd h hq
    rw [writeField, if_neg hq]
    cases hfd : f.data with
    | nil =>
      have hf : f = "" := by rw [← string_mk_data f, hfd]
      show parseAux .startField [] (acc ++ [""]) rest
        = parseAux .startField [] (acc ++ [f]) rest
      rw [hf]
    | cons c tl =>
      have hmem := not_needsQuote_mem f hqf
      have hc := hmem c (by rw [hfd]; simp)
      have hstep : parseAux .startField [] acc ((c :: tl) ++ ',' :: rest)
          = parseAux .inField [c] acc (tl ++ ',' :: rest) := by
        simp [parseAux, hc.1, hc.2.1, hc.2.2.2]
      rw [hstep, parseAux_inField_ord tl
        (fun x hx => ⟨(hmem x (by rw [hfd]; simp [hx])).1,
          (hmem x (by rw [hfd]; simp [hx])).2.2.2⟩) [c] acc (',' :: rest)]
      have hstep2 : parseAux .inField ([c] ++ tl) acc (',' :: rest)
          = parseAux .startField [] (acc ++ [String.mk ([c] ++ tl)]) rest := rfl
      rw [hstep2]
      rw [show String.mk ([c] ++ tl) = f from by
        rw [show ([c] ++ tl : List Char) = c :: tl from rfl, ← hfd, string_mk_data]]

/-- Parsing a serialized field followed by a newline closes the row. -/
theorem parseAux_field_nl (f : String) (acc : List String) (rest : List Char) :
    parseAux .startField [] acc (writeField f ++ '\n' :: rest)
      = (acc ++ [f]) :: parseAux .startRecord [] [] rest := by
  by_cases hq : needsQuote f = true
  · rw [writeField, if_pos hq]
    rw [show (('\"' :: (escQuotes f.data ++ ['\"'])) ++ '\n' :: rest)
      = '\"' :: (escQuotes f.data ++ '\"' :: '\n' :: rest) from by simp]
    have hstep : parseAux .startField [] acc
        ('\"' :: (escQuotes f.data ++ '\"' :: '\n' :: rest))
        = parseAux .inQuoted [] acc (escQuotes f.data ++ '\"' :: '\n' :: rest) := rfl
    rw [hstep, parseAux_inQuoted_esc f.data [] acc ('\n' :: rest)]
    have hstep2 : parseAux .quoteInQuoted ([] ++ f.data) acc ('\n' :: rest)
        = (acc ++ [String.mk ([] ++ f.data)]) :: parseAux .startRecord [] [] rest := rfl
    rw [hstep2]
    rw [show String.mk ([] ++ f.data) = f from by simp [string_mk_data]]
  · have hqf : needsQuote f = false := by
      cases h : needsQuote f
      · rfl
      · exact absurd h hq
    rw [writeField, if_neg hq]
    cases hfd : f.data with
    | nil =>
      have hf : f = "" := by rw [← string_mk_data f, hfd]
      show (acc ++ [""]) :: parseAux .startRecord [] [] rest
        = (acc ++ [f]) :: parseAux .startRecord [] [] rest
      rw [hf]
    | cons c tl =>
      have hmem := not_needsQuote_mem f hqf
      have hc := hmem c (by rw [hfd]; simp)
      have hstep : parseAux .startField [] acc ((c :: tl) ++ '\n' :: rest)
          = parseAux .inField [c] acc (tl ++ '\n' :: rest) := by
        simp [parseAux, hc.1, hc.2.1, hc.2.2.2]
      rw [hstep, parseAux_inField_ord tl
        (fun x hx => ⟨(hmem x (by rw [hfd]; simp [hx])).1,
          (hmem x (by rw [hfd]; simp [hx])).2.2.2⟩) [c] acc ('\n' :: rest)]
      have hstep2 : parseAux .inField ([c] ++ tl) acc ('\n' :: rest)
          = (acc ++ [String.mk ([c] ++ tl)]) :: parseAux .startRecord [] [] rest := rfl
      rw [hstep2]
      rw [show String.mk ([c] ++ tl) = f from by
        rw [show ([c] ++ tl : List Char) = c :: tl from rfl, ← hfd, string_mk_data]]

/-- Parsing the joined serialized fields of a row up to its newline. -/
theorem parseAux_join : ∀ (fs : List String), fs ≠ [] →
    ∀ (acc : List String) (rest : List Char),
    parseAux .startField [] acc (joinFields fs ++ '\n' :: rest)
      = (acc ++ fs) :: parseAux .startRecord [] [] rest
  | [], h, _, _ => absurd rfl h
  | [f], _, acc, rest => by
    show parseAux .startField [] acc (writeField f ++ '\n' :: rest) = _
    rw [parseAux_field_nl f acc rest]
  | f :: f2 :: t, _, acc, rest => by
    show parseAux .startField [] acc
      ((writeField f ++ ',' :: joinFields (f2 :: t)) ++ '\n' :: rest) = _
    rw [show ((writeField f ++ ',' :: joinFields (f2 :: t)) ++ '\n' :: rest)
      = writeField f ++ ',' :: (joinFields (f2 :: t) ++ '\n' :: rest) from by simp]
    rw [parseAux_field_comma f acc _]
    rw [parseAux_join (f2 :: t) (by simp) (acc ++ [f]) rest]
    simp

/-- A serialized field either starts with the quote character or is the
raw data of a field free of special characters. -/
theorem writeField_shape (f : String) :
    (∃ body, writeField f = '\"' :: body) ∨
    (writeField f = f.data ∧ ∀ c ∈ f.data, c ≠ ',' ∧ c ≠ '\"' ∧ c ≠ '\r' ∧ c ≠ '\n') := by
  by_cases hq : needsQuote f = true
  · exact Or.inl ⟨escQuotes f.data ++ ['\"'], by rw [writeField, if_pos hq]⟩
  · have hqf : needsQuote f = false := by
      cases h : needsQuote f
      · rfl
      · exact absurd h hq
    exact Or.inr ⟨by rw [writeField, if_neg hq], not_needsQuote_mem f hqf⟩

/-- A serialized nonempty row other than the lone empty field starts with a
character other than the newline. -/
theorem join_head (f : String) (fs : List String) (hno : f :: fs ≠ [""]) :
    ∃ c tl, joinFields (f :: fs) = c :: tl ∧ c ≠ '\n' := by
  rcases writeField_shape f with ⟨body, hb⟩ | ⟨hb, hmem⟩
  · rcases fs with _ | ⟨f2, t2⟩
    · exact ⟨'\"', body, by rw [show joinFields [f] = writeField f from rfl, hb],
        by decide⟩
    · refine ⟨'\"', body ++ ',' :: joinFields (f2 :: t2), ?_, by decide⟩
      rw [show joinFields (f :: f2 :: t2)
        = writeField f ++ ',' :: joinFields (f2 :: t2) from rfl, hb]
      simp
  · cases hfd : f.data with
    | nil =>
      rcases fs with _ | ⟨f2, t2⟩
      · have hf : f = "" := by rw [← string_mk_data f, hfd]
        exact absurd (by rw [hf]) hno
      · refine ⟨',', joinFields (f2 :: t2), ?_, by decide⟩
        rw [show joinFields (f :: f2 :: t2)
          = writeField f ++ ',' :: joinFields (f2 :: t2) from rfl, hb, hfd]
        rfl
    | cons c tl =>
      have hc := hmem c (by rw [hfd]; simp)
      rcases fs with _ | ⟨f2, t2⟩
      · exact ⟨c, tl, by rw [show joinFields [f] = writeField f from rfl, hb, hfd],
          hc.2.2.2⟩
      · refine ⟨c, tl ++ ',' :: joinFields (f2 :: t2), ?_, hc.2.2.2⟩
        rw [show joinFields (f :: f2 :: t2)
          = writeField f ++ ',' :: joinFields (f2 :: t2) from rfl, hb, hfd]
        simp

/-- At a record start with a non-newline head, the parser behaves as at a
field start with empty accumulators. -/
theorem parseAux_SR_SF (c : Char) (t : List Char) (hcn : c ≠ '\n') :
    parseAux .startRecord [] [] (c :: t) = parseAux .startField [] [] (c :: t) := by
  by_cases h1 : c = ','
  · subst h1
    rfl
  · by_cases h2 : c = '\"'
    · subst h2
      rfl
    · have e1 : parseAux .startRecord [] [] (c :: t) = parseAux .inField [c] [] t := by
        simp [parseAux, h1, h2, hcn]
      have e2 : parseAux .startField [] [] (c :: t) = parseAux .inField [c] [] t := by
        simp [parseAux, h1, h2, hcn]
      rw [e1, e2]

/-- Round trip for one `\n`-terminated serialized row: the parser recovers
the row and proceeds. -/
theorem parse_rowLF (row : List String) (rest : List Char) (hne : row ≠ []) :
    parseAux .startRecord [] [] (writeRowWith ['\n'] row ++ rest)
      = row :: parseAux .startRecord [] [] rest := by
  by_cases hsp : row = [""]
  · subst hsp
    rfl
  · rcases row with _ | ⟨f, fs⟩
    · exact absurd rfl hne
    · rw [writeRowWith, if_neg hsp]
      rw [show ((joinFields (f :: fs) ++ ['\n']) ++ rest)
        = joinFields (f :: fs) ++ '\n' :: rest from by simp]
      obtain ⟨c, tl, hj, hcn⟩ := join_head f fs hsp
      rw [hj, List.cons_append, parseAux_SR_SF c (tl ++ '\n' :: rest) hcn,
        ← List.cons_append, ← hj, parseAux_join (f :: fs) (by simp) [] rest]
      simp

/-- Round trip for a block of `\n`-terminated serialized rows. -/
theorem parse_writeAllLF : ∀ (rows : List (List String)), (∀ r ∈ rows, r ≠ []) →
    csvParse ((rows.map (writeRowWith ['\n'])).flatten) = rows
  | [], _ => rfl
  | r :: rs, hne => by
    show parseAux .startRecord [] []
      (writeRowWith ['\n'] r ++ (rs.map (writeRowWith ['\n'])).flatten) = _
    rw [parse_rowLF r _ (hne r (by simp))]
    rw [show parseAux .startRecord [] [] ((rs.map (writeRowWith ['\n'])).flatten)
      = csvParse ((rs.map (writeRowWith ['\n'])).flatten) from rfl]
    rw [parse_writeAllLF rs (fun x hx => hne x (by simp [hx]))]

/-- Lookup after insert: the inserted key reads back its value, others are
unchanged. -/
theorem dictGet?_insert (d : PyDict) (k k' : String) (v : Option String) :
    dictGet? (dictInsert d k v) k' = if k = k' then some v else dictGet? d k' := by
  induction d with
  | nil => by_cases h : k = k' <;> simp [dictInsert, dictGet?, h]
  | cons p t ih =>
    obtain ⟨pk', pv'⟩ := p
    by_cases h1 : pk' = k <;> by_cases h2 : k = k' <;>
      simp_all [dictInsert, dictGet?]

/-- A key is absent exactly when no entry carries it. -/
theorem dictGet?_eq_none (d : PyDict) (k : String) :
    dictGet? d k = none ↔ ∀ p ∈ d, p.1 ≠ k := by
  induction d with
  | nil => simp [dictGet?]
  | cons p t ih =>
    obtain ⟨pk', pv'⟩ := p
    by_cases h : pk' = k <;> simp [dictGet?, h, ih]

/-- Inserting a fresh key appends the binding at the end. -/
theorem dictInsert_fresh (d : PyDict) (k : String) (v : Option String)
    (h : dictGet? d k = none) : dictInsert d k v = d ++ [(k, v)] := by
  induction d with
  | nil => rfl
  | cons p t ih =>
    obtain ⟨pk', pv'⟩ := p
    by_cases hk : pk' = k
    · simp [dictGet?, hk] at h
    · simp [dictGet?, hk] at h
      simp [dictInsert, hk, ih h]

/-- Folding fresh, pairwise-distinct insertions appends the bindings in
order. -/
theorem foldl_insert_fresh (pairs : List (String × Option String)) (d : PyDict)
    (hfresh : ∀ p ∈ pairs, dictGet? d p.1 = none)
    (hnd : (pairs.map Prod.fst).Nodup) :
    pairs.foldl (fun d kv => dictInsert d kv.1 kv.2) d = d ++ pairs := by
  induction pairs generalizing d with
  | nil => simp
  | cons p t ih =>
    obtain ⟨k, v⟩ := p
    have hfr : dictGet? d k = none := hfresh (k, v) (by simp)
    have hstep : dictInsert d k v = d ++ [(k, v)] := dictInsert_fresh d k v hfr
    simp only [List.foldl_cons, hstep]
    rw [ih]
    · simp
    · intro q hq
      rw [dictGet?_eq_none]
      intro r hr
      rcases List.mem_append.mp hr with hr | hr
      · exact (dictGet?_eq_none d q.1).mp (hfresh q (by simp [hq])) r hr
      · simp only [List.mem_singleton] at hr
        subst hr
        simp only [List.map_cons, List.nodup_cons] at hnd
        intro hcontra
        apply hnd.1
        have hq1 : q.1 ∈ t.map Prod.fst := List.mem_map_of_mem Prod.fst hq
        have hk : k = q.1 := hcontra
        rw [hk]
        exact hq1
    · simp only [List.map_cons, List.nodup_cons] at hnd
      exact hnd.2

/-- The keys of a zip are the first list truncated to the second's length. -/
theorem map_fst_zip_eq_take {α β : Type} (l1 : List α) (l2 : List β) :
    (l1.zip l2).map Prod.fst = l1.take l2.length := by
  induction l1 generalizing l2 with
  | nil => simp
  | cons a t ih =>
    cases l2 with
    | nil => simp
    | cons b t2 => simp [ih]

/-- Closed form of the positional cell values. -/
theorem optVals_closed (header raw : List String) :
    optVals header raw =
      (raw.map some).take header.length ++
        List.replicate (header.length - raw.length) (none : Option String) := by
  rw [optVals, List.take_append_eq_append_take, List.take_replicate]
  have : min (header.length - (raw.map some).length) header.length
      = header.length - raw.length := by rw [List.length_map]; omega
  rw [this]

/-- The positional cell values list matches the header in length. -/
theorem optVals_length (header raw : List String) :
    (optVals header raw).length = header.length := by
  rw [optVals_closed]
  simp
  omega

/-- Positional cell values, cons step with a row value available. -/
theorem optVals_cons (h : String) (hs : List String) (r : String) (rs : List String) :
    optVals (h :: hs) (r :: rs) = some r :: optVals hs rs := by
  rw [optVals_closed, optVals_closed]
  simp

/-- Positional cell values, cons step with the row exhausted. -/
theorem optVals_cons_nil (h : String) (hs : List String) :
    optVals (h :: hs) [] = none :: optVals hs [] := by
  rw [optVals_closed, optVals_closed]
  simp [List.replicate_succ]

/-- The zipped bindings followed by the `None` fills equal the positional
zip of the header with the cell values. -/
theorem zip_optVals_append (header raw : List String) :
    (header.zip raw).map (fun kv => (kv.1, some kv.2)) ++
      (List.drop raw.length header).map (fun k => (k, (none : Option String))) =
    header.zip (optVals header raw) := by
  induction header generalizing raw with
  | nil => simp
  | cons h hs ih =>
    cases raw with
    | nil =>
      rw [optVals_cons_nil]
      simp only [List.zip_nil_right, List.map_nil, List.nil_append,
        List.length_nil, List.drop_zero, List.map_cons, List.zip_cons_cons]
      exact congrArg _ (by simpa using ih [])
    | cons r rs =>
      rw [optVals_cons]
      simp only [List.zip_cons_cons, List.map_cons, List.cons_append,
        List.length_cons, List.drop_succ_cons]
      exact congrArg _ (ih rs)

/-- `buildDict` is the positional zip of the header with the cell values,
for a duplicate-free header. -/
theorem buildDict_eq (header raw : List String) (hnd : header.Nodup) :
    buildDict header raw = header.zip (optVals header raw) := by
  have hzipkeys : ((header.zip raw).map Prod.fst) = header.take raw.length :=
    map_fst_zip_eq_take header raw
  have hkeys1 : (((header.zip raw).map (fun kv => (kv.1, some kv.2))).map Prod.fst)
      = header.take raw.length := by
    rw [List.map_map, List.map_congr_left (fun a _ => rfl : ∀ a ∈ header.zip raw,
      (Prod.fst ∘ fun kv : String × String => (kv.1, some kv.2)) a = Prod.fst a)]
    exact hzipkeys
  have hkeys2 : (((List.drop raw.length header).map
      (fun k => (k, (none : Option String)))).map Prod.fst)
      = List.drop raw.length header := by
    rw [List.map_map, List.map_congr_left (fun a _ => rfl : ∀ a ∈ List.drop raw.length header,
      (Prod.fst ∘ fun k : String => (k, (none : Option String))) a = id a)]
    exact List.map_id _
  have h1 : (header.zip raw).foldl
      (fun d kv => dictInsert d kv.1 (some kv.2)) ([] : PyDict) =
      (header.zip raw).map (fun kv => (kv.1, some kv.2)) := by
    have happ := foldl_insert_fresh ((header.zip raw).map (fun kv => (kv.1, some kv.2)))
      [] (fun p _ => rfl)
      (by rw [hkeys1]; exact hnd.sublist (List.take_sublist _ _))
    rw [List.foldl_map] at happ
    simpa using happ
  have h2 : ((List.drop raw.length header).map
        (fun k => (k, (none : Option String)))).foldl
      (fun d kv => dictInsert d kv.1 kv.2)
      ((header.zip raw).map (fun kv => (kv.1, some kv.2))) =
      (header.zip raw).map (fun kv => (kv.1, some kv.2)) ++
        (List.drop raw.length header).map (fun k => (k, (none : Option String))) := by
    apply foldl_insert_fresh
    · intro p hp
      rw [dictGet?_eq_none]
      intro q hq hcontra
      obtain ⟨k, hk, rfl⟩ := List.mem_map.mp hp
      obtain ⟨kv, hkv, rfl⟩ := List.mem_map.mp hq
      have hmem1 : kv.1 ∈ header.take raw.length := by
        rw [← hzipkeys]
        exact List.mem_map_of_mem Prod.fst hkv
      have hmem2 : k ∈ List.drop raw.length header := hk
      have hkq : kv.1 = k := hcontra
      rw [hkq] at hmem1
      exact (List.disjoint_take_drop hnd (le_refl raw.length)) hmem1 hmem2
    · rw [hkeys2]
      exact hnd.sublist (List.drop_sublist _ _)
  rw [List.foldl_map] at h2
  show (List.drop raw.length header).foldl (fun d k => dictInsert d k none) _
      = header.zip (optVals header raw)
  rw [h1]
  rw [show ((List.drop raw.length header).foldl
      (fun d k => dictInsert d k none)
      ((header.zip raw).map (fun kv => (kv.1, some kv.2)))) =
    ((List.drop raw.length header).foldl
      (fun d k => dictInsert d (k, (none : Option String)).1 (k, (none : Option String)).2)
      ((header.zip raw).map (fun kv => (kv.1, some kv.2)))) from rfl]
  rw [h2]
  exact zip_optVals_append header raw

/-- A SHA-256 digest is 32 bytes long. -/
theorem sha256_length (msg : List Nat) : (sha256 msg).length = 32 := by
  simp [sha256, wordBytes]

/-- Every byte of a big-endian word decomposition is below 256. -/
theorem wordBytes_lt (x : Nat) : ∀ b ∈ wordBytes x, b < 256 := by
  intro b hb
  simp only [wordBytes, List.mem_cons, List.not_mem_nil, or_false] at hb
  rcases hb with h | h | h | h <;> omega

/-- Every byte of a SHA-256 digest is below 256. -/
theorem sha256_lt (msg : List Nat) : ∀ b ∈ sha256 msg, b < 256 := by
  intro b hb
  simp only [sha256, List.mem_append] at hb
  rcases hb with ((((((h | h) | h) | h) | h) | h) | h) | h <;>
    exact wordBytes_lt _ b h

/-- An HMAC-SHA256 digest is 32 bytes long. -/
theorem hmacSha256_length (key msg : List Nat) : (hmacSha256 key msg).length = 32 := by
  simp [hmacSha256, sha256_length]

/-- Every byte of an HMAC-SHA256 digest is below 256. -/
theorem hmacSha256_lt (key msg : List Nat) : ∀ b ∈ hmacSha256 key msg, b < 256 := by
  simp only [hmacSha256]
  exact sha256_lt _

/-- Hex rendering yields two characters per byte. -/
theorem bytesToHex_length (bs : List Nat) : (bytesToHex bs).length = 2 * bs.length := by
  induction bs with
  | nil => rfl
  | cons b t ih => simp [bytesToHex, ih]; omega

/-- A hex digit of a value below 16 is a lowercase hexadecimal digit. -/
theorem hexChar_mem (n : Nat) (h : n < 16) : hexChar n ∈ hexAlphabet := by
  interval_cases n <;> decide

/-- All characters of the hex rendering of genuine bytes are lowercase
hexadecimal digits. -/
theorem bytesToHex_mem (bs : List Nat) (h : ∀ b ∈ bs, b < 256) :
    ∀ c ∈ bytesToHex bs, c ∈ hexAlphabet := by
  induction bs with
  | nil => intro c hc; cases hc
  | cons b t ih =>
    intro c hc
    have hb : b < 256 := h b (by simp)
    rcases hc with _ | ⟨_, hc⟩
    · exact hexChar_mem _ (by omega)
    · rcases hc with _ | ⟨_, hc⟩
      · exact hexChar_mem _ (Nat.mod_lt _ (by norm_num))
      · exact ih (fun x hx => h x (by simp [hx])) c hc

/-- Value-replacing maps keep a dict's key list. -/
theorem map_fst_value_map (d : PyDict) (g : String × Option String → Option String) :
    (d.map (fun kv => (kv.1, g kv))).map Prod.fst = d.map Prod.fst := by
  rw [List.map_map]
  exact List.map_congr_left (fun a _ => rfl)

/-- For duplicate-free keys, inserting at a present key rewrites exactly
that entry's value. -/
theorem dictInsert_existing (d : PyDict) (f : String) (w : Option String)
    (hnd : (d.map Prod.fst).Nodup) (hmem : dictGet? d f ≠ none) :
    dictInsert d f w = d.map (fun kv => (kv.1, if kv.1 = f then w else kv.2)) := by
  induction d with
  | nil => simp [dictGet?] at hmem
  | cons p t ih =>
    obtain ⟨k, v⟩ := p
    simp only [List.map_cons, List.nodup_cons] at hnd
    by_cases hk : k = f
    · subst hk
      have h1 : dictInsert ((k, v) :: t) k w = (k, w) :: t := by simp [dictInsert]
      have hpt : ∀ kv ∈ t, ((kv.1, if kv.1 = k then w else kv.2) : String × Option String)
          = kv := by
        intro kv hkv
        have hne : kv.1 ≠ k := fun hc => hnd.1 (hc ▸ List.mem_map_of_mem Prod.fst hkv)
        simp [hne]
      have h2 : t.map (fun kv => ((kv.1, if kv.1 = k then w else kv.2) :
          String × Option String)) = t :=
        (List.map_congr_left hpt).trans (List.map_id t)
      rw [h1, List.map_cons, if_pos rfl, h2]
    · simp only [dictInsert, if_neg hk, List.map_cons, if_neg hk]
      congr 1
      apply ih hnd.2
      simpa [dictGet?, hk] using hmem

/-- The sensitive-field loop rewrites each targeted header field's value to
the callback result and records one call per matching list entry (for
duplicate-free dict keys). -/
theorem applySensitive_spec (sensitive : List String) (d : PyDict)
    (pkv : Option String) (fn : Option String → String → String)
    (hnd : (d.map Prod.fst).Nodup) :
    applySensitive d sensitive pkv fn =
      (d.map (fun kv => (kv.1, if kv.1 ∈ sensitive then some (fn pkv kv.1) else kv.2)),
       (sensitive.filter (fun f => (dictGet? d f).isSome)).map (fun f => (pkv, f))) := by
  induction sensitive generalizing d with
  | nil =>
    simp only [applySensitive, List.not_mem_nil, if_false, List.filter_nil, List.map_nil]
    refine Prod.ext ?_ rfl
    exact (((List.map_congr_left (fun kv _ => rfl)).trans (List.map_id d)).symm : d = _)
  | cons f fs ih =>
    rcases hget : dictGet? d f with _ | v
    · have habs : ∀ kv ∈ d, kv.1 ≠ f := (dictGet?_eq_none d f).mp hget
      simp only [applySensitive, hget]
      rw [ih d hnd]
      refine Prod.ext ?_ ?_
      · apply List.map_congr_left
        intro kv hkv
        have hne := habs kv hkv
        by_cases hin : kv.1 ∈ fs <;> simp [List.mem_cons, hin, hne]
      · simp [hget]
    · simp only [applySensitive, hget]
      have hpres : dictGet? d f ≠ none := by rw [hget]; exact Option.noConfusion
      have hins := dictInsert_existing d f (some (fn pkv f)) hnd hpres
      have hkeys : ((dictInsert d f (some (fn pkv f))).map Prod.fst).Nodup := by
        rw [hins, map_fst_value_map]
        exact hnd
      rw [ih _ hkeys]
      refine Prod.ext ?_ ?_
      · show (dictInsert d f (some (fn pkv f))).map _ = _
        rw [hins, List.map_map]
        apply List.map_congr_left
        intro kv _
        by_cases h1 : kv.1 ∈ fs <;> by_cases h2 : kv.1 = f <;>
          simp [Function.comp, h1, h2, List.mem_cons]
      · show (pkv, f) :: (fs.filter _).map _ = _
        have hfilter : fs.filter (fun g =>
            (dictGet? (dictInsert d f (some (fn pkv f))) g).isSome) =
            fs.filter (fun g => (dictGet? d g).isSome) := by
          apply List.filter_congr
          intro g _
          rw [dictGet?_insert]
          by_cases hg : f = g
          · subst hg
            simp [hget]
          · simp [hg]
        rw [hfilter]
        simp [hget]

/-- Presence of a key in a positional zip dict is header membership. -/
theorem dictGet?_zip_isSome : ∀ (header : List String) (vals : List (Option String)),
    vals.length = header.length → ∀ f : String,
    (dictGet? (header.zip vals) f).isSome = header.contains f
  | [], [], _, f => by simp [dictGet?]
  | [], v :: vs, hlen, f => by simp at hlen
  | h :: hs, [], hlen, f => by simp at hlen
  | h :: hs, v :: vs, hlen, f => by
    have hlen' : vs.length = hs.length := by simpa using hlen
    by_cases hf : h = f
    · subst hf
      show (if h = h then some v else dictGet? (hs.zip vs) h).isSome = _
      rw [if_pos rfl]
      show true = (h == h || hs.contains h)
      simp
    · show (if h = f then some v else dictGet? (hs.zip vs) f).isSome = _
      rw [if_neg hf, dictGet?_zip_isSome hs vs hlen' f]
      show hs.contains f = (f == h || hs.contains f)
      have hfe : (f == h) = false := by
        simp only [beq_eq_false_iff_ne, ne_eq]
        exact fun hc => hf hc.symm
      rw [hfe, Bool.false_or]

/-- Reading a positional zip dict back in header order returns the value
list (for a duplicate-free header). -/
theorem map_dictGet_zip : ∀ (header : List String) (vals : List (Option String)),
    header.Nodup → vals.length = header.length →
    header.map (fun k => (dictGet? (header.zip vals) k).getD none) = vals
  | [], [], _, _ => by simp
  | [], v :: vs, _, hlen => by simp at hlen
  | h :: hs, [], _, hlen => by simp at hlen
  | h :: hs, v :: vs, hnd, hlen => by
    have hzip : ((h :: hs).zip (v :: vs)) = (h, v) :: hs.zip vs := rfl
    rw [hzip, List.map_cons]
    congr 1
    · simp [dictGet?]
    · have hstep : ∀ k ∈ hs,
          (dictGet? ((h, v) :: hs.zip vs) k).getD none
            = (dictGet? (hs.zip vs) k).getD none := by
        intro k hk
        have hne : h ≠ k := fun hc => (List.nodup_cons.mp hnd).1 (hc ▸ hk)
        simp [dictGet?, hne]
      rw [List.map_congr_left hstep]
      exact map_dictGet_zip hs vs (List.nodup_cons.mp hnd).2 (by simpa using hlen)

/-- A value-transforming map of a zip is again a zip with the header. -/
theorem zip_map_snd (header : List String) (vals : List (Option String))
    (g : String → Option String → Option String) :
    (header.zip vals).map (fun kv => (kv.1, g kv.1 kv.2)) =
      header.zip ((header.zip vals).map (fun kv => g kv.1 kv.2)) := by
  induction header generalizing vals with
  | nil => simp
  | cons h hs ih =>
    cases vals with
    | nil => simp
    | cons v vs => simp [ih]

/-- The positional dict's value at a header field is the zip lookup (`None`
when the row is short). -/
theorem dictGet?_zip_optVals : ∀ (header raw : List String) (pk : String),
    pk ∈ header →
    dictGet? (header.zip (optVals header raw)) pk
      = some ((header.zip raw).lookup pk)
  | [], _, pk, hmem => absurd hmem (List.not_mem_nil pk)
  | h :: hs, raw, pk, hmem => by
    by_cases hf : h = pk
    · subst hf
      cases raw with
      | nil =>
        rw [optVals_cons_nil]
        show (if h = h then some (none : Option String)
          else dictGet? (hs.zip (optVals hs [])) h) = _
        rw [if_pos rfl]
        simp
      | cons r rs =>
        rw [optVals_cons]
        show (if h = h then some (some r)
          else dictGet? (hs.zip (optVals hs rs)) h) = _
        rw [if_pos rfl]
        simp [List.zip_cons_cons, List.lookup_cons]
    · have hmem' : pk ∈ hs := by
        rcases List.mem_cons.mp hmem with hc | hc
        · exact absurd hc.symm hf
        · exact hc
      have hpkh : pk ≠ h := fun hc => hf hc.symm
      cases raw with
      | nil =>
        rw [optVals_cons_nil]
        show (if h = pk then some (none : Option String)
          else dictGet? (hs.zip (optVals hs [])) pk) = _
        rw [if_neg hf, dictGet?_zip_optVals hs [] pk hmem']
        simp
      | cons r rs =>
        rw [optVals_cons]
        show (if h = pk then some (some r)
          else dictGet? (hs.zip (optVals hs rs)) pk) = _
        rw [if_neg hf, dictGet?_zip_optVals hs rs pk hmem']
        simp [List.zip_cons_cons, List.lookup_cons, beq_false_of_ne hpkh]

/-- The dict pipeline's primary-key value is `pkValueSpec` (for a
duplicate-free header). -/
theorem pkValue_eq (header raw : List String) (pk : String) (hnd : header.Nodup) :
    (dictGet? (buildDict header raw) pk).getD (some "") = pkValueSpec header raw pk := by
  rw [buildDict_eq header raw hnd, pkValueSpec]
  by_cases hmem : pk ∈ header
  · rw [if_pos hmem, dictGet?_zip_optVals header raw pk hmem]
    rfl
  · have habs : dictGet? (header.zip (optVals header raw)) pk = none := by
      rw [dictGet?_eq_none]
      intro p hp hc
      apply hmem
      have hmemp := List.mem_map_of_mem Prod.fst hp
      rw [map_fst_zip_eq_take] at hmemp
      rw [← hc]
      exact List.mem_of_mem_take hmemp
    rw [if_neg hmem, habs]
    rfl

/-- `processRow` computed against the positional specification: the calls
are `rowCallsSpec`, a long row raises the `DictWriter` `ValueError`, and
otherwise the written line serializes `transformRowSpec`. -/
theorem processRow_spec (header raw : List String) (sensitive : List String)
    (pk : String) (fn : Option String → String → String) (hnd : header.Nodup) :
    processRow header raw sensitive pk fn =
      ⟨rowCallsSpec header raw sensitive pk,
        if header.length < raw.length then
          .error (.valueError "dict contains fields not in fieldnames: None")
        else .ok (writeRowWith crlf (transformRowSpec header raw sensitive pk fn))⟩ := by
  have hvallen : (optVals header raw).length = header.length := optVals_length header raw
  have hkeys : (buildDict header raw).map Prod.fst = header := by
    rw [buildDict_eq header raw hnd, map_fst_zip_eq_take, hvallen, List.take_length]
  have hnd' : ((buildDict header raw).map Prod.fst).Nodup := by
    rw [hkeys]; exact hnd
  have hcalls : (sensitive.filter (fun f => (dictGet? (buildDict header raw) f).isSome)).map
      (fun f => (pkValueSpec header raw pk, f)) = rowCallsSpec header raw sensitive pk := by
    rw [rowCallsSpec]
    have hcond : ∀ f ∈ sensitive,
        ((dictGet? (buildDict header raw) f).isSome) = header.contains f := by
      intro f _
      rw [buildDict_eq header raw hnd]
      exact dictGet?_zip_isSome header _ hvallen f
    rw [List.filter_congr hcond]
  have hrow : header.map (fun k => ((dictGet? ((buildDict header raw).map
      (fun kv => (kv.1, if kv.1 ∈ sensitive then some (fn (pkValueSpec header raw pk) kv.1)
        else kv.2))) k).getD none).getD "") = transformRowSpec header raw sensitive pk fn := by
    rw [buildDict_eq header raw hnd]
    rw [zip_map_snd header (optVals header raw)
      (fun k v => if k ∈ sensitive then some (fn (pkValueSpec header raw pk) k) else v)]
    have hmlen : (((header.zip (optVals header raw)).map
        (fun kv => if kv.1 ∈ sensitive then some (fn (pkValueSpec header raw pk) kv.1)
          else kv.2)).length) = header.length := by
      rw [List.length_map, List.length_zip, hvallen]
      omega
    have hproj := map_dictGet_zip header _ hnd hmlen
    calc header.map (fun k => ((dictGet? (header.zip ((header.zip (optVals header raw)).map
            (fun kv => if kv.1 ∈ sensitive then some (fn (pkValueSpec header raw pk) kv.1)
              else kv.2))) k).getD none).getD "")
        = (header.map (fun k => (dictGet? (header.zip ((header.zip (optVals header raw)).map
            (fun kv => if kv.1 ∈ sensitive then some (fn (pkValueSpec header raw pk) kv.1)
              else kv.2))) k).getD none)).map (fun x => x.getD "") :=
          (List.map_map (fun x : Option String => x.getD "")
            (fun k => (dictGet? (header.zip ((header.zip (optVals header raw)).map
              (fun kv : String × Option String =>
                if kv.1 ∈ sensitive then some (fn (pkValueSpec header raw pk) kv.1)
                else kv.2))) k).getD none) header).symm
      _ = ((header.zip (optVals header raw)).map
            (fun kv => if kv.1 ∈ sensitive then some (fn (pkValueSpec header raw pk) kv.1)
              else kv.2)).map (fun x => x.getD "") := by rw [hproj]
      _ = transformRowSpec header raw sensitive pk fn := by
          rw [transformRowSpec, List.map_map]
          apply List.map_congr_left
          intro kv _
          by_cases hsv : kv.1 ∈ sensitive <;> simp [Function.comp, hsv]
  have hAS := applySensitive_spec sensitive (buildDict header raw)
    (pkValueSpec header raw pk) fn hnd'
  simp only [processRow]
  rw [pkValue_eq header raw pk hnd]
  simp only [hAS]
  rw [hcalls, hrow]
  by_cases hlong : header.length < raw.length <;> simp [hlong]

/-- The row loop on extras-free rows: one written line per row in order,
the concatenated per-row calls, and the row count. -/
theorem processRows_spec (header : List String) (sensitive : List String)
    (pk : String) (fn : Option String → String → String) (rows : List (List String))
    (hnd : header.Nodup) (hle : ∀ r ∈ rows, r.length ≤ header.length) :
    processRows header sensitive pk fn rows =
      (rows.map (fun raw => writeRowWith crlf (transformRowSpec header raw sensitive pk fn)),
       rows.flatMap (fun raw => rowCallsSpec header raw sensitive pk),
       .ok rows.length) := by
  induction rows with
  | nil => simp [processRows]
  | cons raw rs ih =>
    have hraw : ¬ header.length < raw.length := by
      have h1 := hle raw (by simp)
      omega
    have hrest := ih (fun r hr => hle r (by simp [hr]))
    simp only [processRows, processRow_spec header raw sensitive pk fn hnd,
      if_neg hraw]
    rw [hrest]
    simp

/-- Master characterization of `CSVAdapter.process_stream` on inputs with a
nonempty duplicate-free header whose (non-blank) data rows carry no extra
fields: the header line followed by one serialized `transformRowSpec` line
per data row, the per-row calls in order, and the data-row count. -/
theorem process_stream_spec (input : List Char) (sensitive : List String)
    (pk : String) (fn : Option String → String → String)
    (header : List String) (rest : List (List String))
    (hp : csvParse (translate input) = header :: rest)
    (hn : header ≠ []) (hnd : header.Nodup)
    (hle : ∀ r ∈ rest.filter (fun r => !r.isEmpty), r.length ≤ header.length) :
    CSVAdapter.process_stream input sensitive pk fn =
      ⟨writeRowWith crlf header ::
        (rest.filter (fun r => !r.isEmpty)).map
          (fun raw => writeRowWith crlf (transformRowSpec header raw sensitive pk fn)),
       (rest.filter (fun r => !r.isEmpty)).flatMap
          (fun raw => rowCallsSpec header raw sensitive pk),
       .ok (rest.filter (fun r => !r.isEmpty)).length⟩ := by
  simp only [CSVAdapter.process_stream, hp]
  rw [if_neg hn, processRows_spec header sensitive pk fn _ hnd hle]

/-- Every pair of a header name zipped against the value-mapped zip comes
from a source entry of the original zip. -/
theorem mem_zip_self_map (g : String × Option String → String) :
    ∀ (header : List String) (vals : List (Option String)),
    ∀ p ∈ header.zip ((header.zip vals).map g),
    ∃ kv, kv ∈ header.zip vals ∧ p.1 = kv.1 ∧ p.2 = g kv
  | [], _, p, hp => by simp at hp
  | h :: hs, [], p, hp => by simp at hp
  | h :: hs, v :: vs, p, hp => by
    have hzip : ((h :: hs).zip (((h :: hs).zip (v :: vs)).map g))
        = (h, g (h, v)) :: hs.zip ((hs.zip vs).map g) := rfl
    rw [hzip] at hp
    rcases List.mem_cons.mp hp with hp | hp
    · exact ⟨(h, v), by simp, by simp [hp], by simp [hp]⟩
    · obtain ⟨kv, hkv, h1, h2⟩ := mem_zip_self_map g hs vs p hp
      exact ⟨kv, by simp [hkv], h1, h2⟩

/-- The hex digest of an HMAC object is always 64 characters long. -/
theorem hexdigest_length (st : HmacState) : st.hexdigest.length = 64 := by
  show (bytesToHex (hmacSha256 st.key st.msg)).length = 64
  rw [bytesToHex_length, hmacSha256_length]

/-- Token-mode `obfuscate_value` is the spec-worded HMAC hex truncation:
the shared bridge behind claims C1 and C3. -/
theorem obfuscate_token_eq (key : List Nat) (primary_value : Option String)
    (field_name : String) (length : Nat) (mask_token : String) :
    obfuscate_value key primary_value field_name length "token" mask_token =
      specTokenOfSpec key (primary_value.getD "") field_name length := by
  have hmode : ¬(("token" : String) = "mask") := by decide
  cases primary_value <;>
    simp [obfuscate_value, hmode, specTokenOfSpec, hmacNew, hmacUpdate,
      HmacState.hexdigest, pyStrSlice]

/-- Claim C1: in `token` mode, `obfuscate_value` returns the lowercase
hexadecimal encoding of `HMAC-SHA256(key, primary_value_bytes || 0x7C ||
field_name_bytes)` truncated to `length` characters, a missing/null
`primary_value` being treated as the empty string (first conjunct, against
the spec-worded `specTokenOfSpec`), and every output character is a
lowercase hexadecimal digit (second conjunct).  Determinism and totality
over the documented input domain hold by construction: the embedding is a
pure total Lean function of its arguments. -/
theorem claim_C1 (key : List Nat) (primary_value : Option String)
    (field_name : String) (length : Nat) (mask_token : String) :
    obfuscate_value key primary_value field_name length "token" mask_token =
      specTokenOfSpec key (primary_value.getD "") field_name length ∧
    ∀ c ∈ (obfuscate_value key primary_value field_name length "token" mask_token).data,
      c ∈ hexAlphabet := by
  have heq := obfuscate_token_eq key primary_value field_name length mask_token
  refine ⟨heq, ?_⟩
  rw [heq]
  intro c hc
  have hc' : c ∈ bytesToHex (hmacSha256 key
      (utf8Encode (primary_value.getD "") ++ 124 :: utf8Encode field_name)) := by
    simpa [specTokenOfSpec] using List.mem_of_mem_take hc
  exact bytesToHex_mem _ (hmacSha256_lt _ _) c hc'

/-- Claim C3, counterexample: the claim quantifies over every requested
`length`, but the code truncates a 64-character hex digest with `[:length]`,
so requesting 65 characters yields only 64. -/
theorem claim_C3_cex :
    (obfuscate_value [1] (some "x") "email" 65 "token" "***").length = 64 ∧
    (64 : Nat) ≠ 65 := by
  rw [obfuscate_token_eq [1] (some "x") "email" 65 "***"]
  refine ⟨?_, by omega⟩
  show ((bytesToHex (hmacSha256 [1] _)).take 65).length = 64
  rw [List.length_take, bytesToHex_length, hmacSha256_length]
  omega

/-- Claim C3, amended: whenever the requested `length` does not exceed the
64 hex digits of the digest, token-mode output length equals `length`
(first conjunct, under that bound); and mask mode returns exactly
`mask_token` unconditionally — for every key, primary value and length,
including lengths above 64 (second conjunct; universality in those
arguments is the claimed ignoring, and the embedding is pure, so there are
no side effects). -/
theorem claim_C3 (key : List Nat) (primary_value : Option String)
    (field_name : String) (length : Nat) (mask_token : String) :
    (length ≤ 64 →
      (obfuscate_value key primary_value field_name length "token" mask_token).length
      = length) ∧
    obfuscate_value key primary_value field_name length "mask" mask_token
      = mask_token := by
  constructor
  · intro h
    rw [obfuscate_token_eq key primary_value field_name length mask_token]
    show ((bytesToHex (hmacSha256 key _)).take length).length = length
    rw [List.length_take, bytesToHex_length, hmacSha256_length]
    omega
  · simp [obfuscate_value]

/-- Witness for claim C3 at concrete instances: the token conjunct at
length 16, the mask conjunct also at a length above the digest bound. -/
theorem claim_C3_witness :
    (obfuscate_value [7] (some "123") "email" 16 "token" "***").length = 16 ∧
    obfuscate_value [7] (some "123") "email" 16 "mask" "***" = "***" ∧
    obfuscate_value [7] (some "123") "email" 99 "mask" "***" = "***" :=
  ⟨(claim_C3 [7] (some "123") "email" 16 "***").1 (by omega),
   (claim_C3 [7] (some "123") "email" 16 "***").2,
   (claim_C3 [7] (some "123") "email" 99 "***").2⟩

/-- Claim C7: an empty or absent header row makes `process_stream` raise the
`ValueError` with nothing written, no callback invoked and no record
processed. -/
theorem claim_C7 (input : List Char) (sensitive : List String) (pk : String)
    (fn : Option String → String → String)
    (h : csvParse (translate input) = [] ∨
      ∃ rest, csvParse (translate input) = [] :: rest) :
    CSVAdapter.process_stream input sensitive pk fn =
      ⟨[], [], .error (.valueError "CSV has no header row")⟩ := by
  rcases h with h | ⟨rest, h⟩ <;> simp [CSVAdapter.process_stream, h]

/-- Witness for claim C7: the empty stream has no header row. -/
theorem claim_C7_witness :
    (csvParse (translate "".data) = [] ∨
      ∃ rest, csvParse (translate "".data) = [] :: rest) ∧
    CSVAdapter.process_stream "".data ["email"] "id" (fun _ _ => "x") =
      ⟨[], [], .error (.valueError "CSV has no header row")⟩ :=
  ⟨Or.inl rfl, claim_C7 "".data ["email"] "id" (fun _ _ => "x") (Or.inl rfl)⟩

/-- Claim C8: the adapters resolved for `json`, `jsonl` and `parquet` fail
unconditionally with `NotImplementedError` before writing anything, the
message naming the format family and stating that only CSV is supported, and
the parquet message naming the `pyarrow` dependency. -/
theorem claim_C8 (input : List Char) (sensitive : List String) (pk : String)
    (fn : Option String → String → String) :
    get_adapter "json" = .ok .json ∧ get_adapter "jsonl" = .ok .json ∧
    get_adapter "parquet" = .ok .parquet ∧
    JSONAdapter.process_stream input sensitive pk fn =
      ⟨[], [], .error (.notImplementedError jsonStubMsg)⟩ ∧
    ParquetAdapter.process_stream input sensitive pk fn =
      ⟨[], [], .error (.notImplementedError parquetStubMsg)⟩ ∧
    hasSub "JSON".data jsonStubMsg.data = true ∧
    hasSub "Currently only CSV format is supported".data jsonStubMsg.data = true ∧
    hasSub "Parquet".data parquetStubMsg.data = true ∧
    hasSub "pyarrow".data parquetStubMsg.data = true ∧
    hasSub "Currently only CSV format is supported".data parquetStubMsg.data = true := by
  exact ⟨by decide, by decide, by decide, rfl, rfl, by decide, by decide,
    by decide, by decide, by decide⟩

/-- Appending write operations to a stream appends their chunks in order. -/
theorem runOps_writes (lines : List (List Char)) (st : ByteStream)
    (rest : List StreamOp) :
    runOps st (lines.map StreamOp.write ++ rest) =
      runOps ⟨st.data ++ lines.flatten, st.closed⟩ rest := by
  induction lines generalizing st with
  | nil => simp [runOps]
  | cons l t ih =>
    have hstep : runOps st ((l :: t).map StreamOp.write ++ rest) =
        runOps ⟨st.data ++ l, st.closed⟩ (t.map StreamOp.write ++ rest) := rfl
    rw [hstep, ih]
    simp

/-- Claim C10: `CSVAdapter.process_stream` never closes the caller's
underlying streams (`detach` in the `finally` block leaves no close
operation in the output trace, on success and on failure alike), and its
only effect on the output stream is appending the written chunks: the prior
content stays as a prefix. -/
theorem claim_C10 (input : List Char) (sensitive : List String) (pk : String)
    (fn : Option String → String → String) (st : ByteStream) :
    StreamOp.close ∉ csvOutputOps (CSVAdapter.process_stream input sensitive pk fn) ∧
    (runOps st (csvOutputOps (CSVAdapter.process_stream input sensitive pk fn))).closed
      = st.closed ∧
    (runOps st (csvOutputOps (CSVAdapter.process_stream input sensitive pk fn))).data
      = st.data ++ (CSVAdapter.process_stream input sensitive pk fn).out := by
  have hops : ∀ rest, runOps st
      ((CSVAdapter.process_stream input sensitive pk fn).lines.map StreamOp.write ++ rest) =
      runOps ⟨st.data ++ (CSVAdapter.process_stream input sensitive pk fn).out, st.closed⟩
        rest := fun rest => runOps_writes _ _ _
  refine ⟨?_, ?_, ?_⟩
  · intro hmem
    rcases hres : (CSVAdapter.process_stream input sensitive pk fn).result with e | n <;>
      simp [csvOutputOps, hres] at hmem
  · rcases hres : (CSVAdapter.process_stream input sensitive pk fn).result with e | n <;>
      simp only [csvOutputOps, hres] <;> rw [hops] <;> rfl
  · rcases hres : (CSVAdapter.process_stream input sensitive pk fn).result with e | n <;>
      simp only [csvOutputOps, hres] <;> rw [hops] <;> rfl

/-- Claim C4, counterexample: with the email cell raw value `bob` replaced
by the callback result `TOKEN` (which differs from `bob`), the raw string
`bob` still appears verbatim in the serialized output, because the
non-sensitive `name` column holds the same string. -/
theorem claim_C4_cex :
    (CSVAdapter.process_stream "id,name,email\n1,bob,bob\n".data ["email"] "id"
        (fun _ _ => "TOKEN")).out = "id,name,email\r\n1,bob,TOKEN\r\n".data ∧
    hasSub "bob".data
      (CSVAdapter.process_stream "id,name,email\n1,bob,bob\n".data ["email"] "id"
        (fun _ _ => "TOKEN")).out = true ∧
    ("TOKEN" : String) ≠ "bob" := by
  exact ⟨by decide, by decide, by decide⟩

/-- Claim C5, counterexample: `sensitive_fields` is a list, and the loop
runs once per list entry, so a duplicated entry makes the adapter invoke the
callback twice for the same (record, field) pair. -/
theorem claim_C5_cex :
    (CSVAdapter.process_stream "a,b\n1,2\n".data ["b", "b"] "q"
        (fun _ _ => "T")).calls = [(some "", "b"), (some "", "b")] ∧
    ((CSVAdapter.process_stream "a,b\n1,2\n".data ["b", "b"] "q"
        (fun _ _ => "T")).calls).count ((some "", "b")) = 2 := by
  exact ⟨by decide, by decide⟩

/-- Claim C6, counterexample: a record with more fields than the header is
not tolerated — `DictWriter.writerow` raises `ValueError` on the rest key,
aborting the stream after the header has already been written. -/
theorem claim_C6_cex :
    CSVAdapter.process_stream "a,b\n1,2,3\n".data ["x"] "a" (fun _ _ => "T") =
      ⟨["a,b\r\n".data], [],
        .error (.valueError "dict contains fields not in fieldnames: None")⟩ := by
  decide

/-- A duplicate-free list filtered down to one of its members is that
singleton. -/
theorem filter_beq_of_nodup (l : List String) (a : String) (hnd : l.Nodup)
    (ha : a ∈ l) : l.filter (fun x => x == a) = [a] := by
  induction l with
  | nil => cases ha
  | cons b t ih =>
    rcases List.mem_cons.mp ha with hb | hb
    · subst hb
      have hnot : a ∉ t := (List.nodup_cons.mp hnd).1
      have hempty : t.filter (fun x => x == a) = [] := by
        rw [List.filter_eq_nil_iff]
        intro x hx
        simp only [beq_iff_eq]
        exact fun hc => hnot (hc ▸ hx)
      simp [List.filter_cons, hempty]
    · have hba : ¬(b = a) := fun hc => (List.nodup_cons.mp hnd).1 (hc ▸ hb)
      have hstep : (b == a) = false := by simp [hba]
      simp only [List.filter_cons, hstep]
      exact ih (List.nodup_cons.mp hnd).2 hb

/-- For a duplicate-free sensitive list, a row's call list holds exactly one
call for each sensitive field present in the header. -/
theorem rowCalls_once (header raw sensitive : List String) (pk f : String)
    (hsnd : sensitive.Nodup) (hf : f ∈ sensitive)
    (hcf : header.contains f = true) :
    (rowCallsSpec header raw sensitive pk).filter (fun c => c.2 == f)
      = [(pkValueSpec header raw pk, f)] := by
  rw [rowCallsSpec, List.filter_map]
  have hconv : (sensitive.filter (fun g => header.contains g)).filter
      ((fun c : Option String × String => c.2 == f) ∘
        (fun g => (pkValueSpec header raw pk, g))) =
      (sensitive.filter (fun g => header.contains g)).filter (fun x => x == f) :=
    List.filter_congr (fun x _ => rfl)
  rw [hconv, filter_beq_of_nodup _ f (hsnd.filter _)
    (List.mem_filter.mpr ⟨hf, by simpa using hcf⟩)]
  rfl

/-- Claim C4, amended: the serialized output is exactly the header line
followed by the `transformRowSpec` serialization of each data row, and in
every transformed row the cell paired with a sensitive header field is the
obfuscation callback's result — never the raw value.  (The original
universal non-leakage wording is refuted by `claim_C4_cex`: a raw sensitive
value can still reach the output through a non-targeted column.) -/
theorem claim_C4 (input : List Char) (sensitive : List String) (pk : String)
    (fn : Option String → String → String) (header : List String)
    (rest : List (List String))
    (hp : csvParse (translate input) = header :: rest)
    (hn : header ≠ []) (hnd : header.Nodup)
    (hle : ∀ r ∈ rest.filter (fun r => !r.isEmpty), r.length ≤ header.length) :
    (CSVAdapter.process_stream input sensitive pk fn).out =
      writeRowWith crlf header ++
        ((rest.filter (fun r => !r.isEmpty)).map
          (fun raw => writeRowWith crlf (transformRowSpec header raw sensitive pk fn))).flatten ∧
    ∀ raw ∈ rest.filter (fun r => !r.isEmpty),
      ∀ p ∈ header.zip (transformRowSpec header raw sensitive pk fn),
        p.1 ∈ sensitive → p.2 = fn (pkValueSpec header raw pk) p.1 := by
  constructor
  · rw [process_stream_spec input sensitive pk fn header rest hp hn hnd hle]
    rfl
  · intro raw _ p hp1 hps
    rw [transformRowSpec] at hp1
    obtain ⟨kv, _, h1, h2⟩ := mem_zip_self_map
      (fun kv => if kv.1 ∈ sensitive then fn (pkValueSpec header raw pk) kv.1
        else kv.2.getD "")
      header (optVals header raw) p hp1
    rw [h2, if_pos (h1 ▸ hps), h1]

/-- Witness for claim C4 at a concrete instance. -/
theorem claim_C4_witness :
    (CSVAdapter.process_stream "id,email\n1,bob\n".data ["email"] "id"
      (fun _ _ => "T")).out = "id,email\r\n1,T\r\n".data := by
  have h := (claim_C4 "id,email\n1,bob\n".data ["email"] "id" (fun _ _ => "T")
    ["id", "email"] [["1", "bob"]] (by decide) (by decide) (by decide) (by decide)).1
  rw [h]
  decide

/-- Claim C5, amended: for a duplicate-free sensitive-field list (a set, as
the data model requires) and data rows without extra fields, the adapter's
callback invocations are exactly the concatenation over the data rows of one
call per sensitive field present in the header, passing that row's
primary-key value (the empty string when the field is absent from the
header, the row value — `None` for a short row — otherwise). -/
theorem claim_C5 (input : List Char) (sensitive : List String) (pk : String)
    (fn : Option String → String → String) (header : List String)
    (rest : List (List String))
    (hp : csvParse (translate input) = header :: rest)
    (hn : header ≠ []) (hnd : header.Nodup)
    (hle : ∀ r ∈ rest.filter (fun r => !r.isEmpty), r.length ≤ header.length)
    (hsnd : sensitive.Nodup) :
    (CSVAdapter.process_stream input sensitive pk fn).calls =
      (rest.filter (fun r => !r.isEmpty)).flatMap
        (fun raw => rowCallsSpec header raw sensitive pk) ∧
    ∀ raw f, f ∈ sensitive → header.contains f = true →
      ((rowCallsSpec header raw sensitive pk).filter (fun c => c.2 == f)).length = 1 ∧
      (pkValueSpec header raw pk, f) ∈ rowCallsSpec header raw sensitive pk := by
  constructor
  · rw [process_stream_spec input sensitive pk fn header rest hp hn hnd hle]
  · intro raw f hf hcf
    constructor
    · rw [rowCalls_once header raw sensitive pk f hsnd hf hcf]
      rfl
    · rw [rowCallsSpec]
      exact List.mem_map_of_mem _ (List.mem_filter.mpr ⟨hf, by simpa using hcf⟩)

/-- Witness for claim C5 at a concrete instance. -/
theorem claim_C5_witness :
    (CSVAdapter.process_stream "id,email\n1,bob\n".data ["email"] "id"
      (fun _ _ => "T")).calls = [(some "1", "email")] := by
  have h := (claim_C5 "id,email\n1,bob\n".data ["email"] "id" (fun _ _ => "T")
    ["id", "email"] [["1", "bob"]] (by decide) (by decide) (by decide) (by decide)
    (by decide)).1
  rw [h]
  decide

/-- Claim C6, amended: per-record leniency holds for missing fields — a
sensitive field absent from the header is skipped, a missing primary-key
field degrades to the empty string, and rows shorter than the header are
padded — and such streams complete with one written line per data row plus
the header; but a record with more fields than the header aborts the stream
(`claim_C6_cex`), so the no-extra-fields bound is a hypothesis here, not a
tolerated case. -/
theorem claim_C6 (input : List Char) (sensitive : List String) (pk : String)
    (fn : Option String → String → String) (header : List String)
    (rest : List (List String))
    (hp : csvParse (translate input) = header :: rest)
    (hn : header ≠ []) (hnd : header.Nodup)
    (hle : ∀ r ∈ rest.filter (fun r => !r.isEmpty), r.length ≤ header.length) :
    (CSVAdapter.process_stream input sensitive pk fn).result =
      .ok (rest.filter (fun r => !r.isEmpty)).length ∧
    (CSVAdapter.process_stream input sensitive pk fn).lines.length
      = (rest.filter (fun r => !r.isEmpty)).length + 1 := by
  rw [process_stream_spec input sensitive pk fn header rest hp hn hnd hle]
  exact ⟨rfl, by simp⟩

/-- Witness for claim C6 at a concrete instance (short row, absent sensitive
field, absent primary key). -/
theorem claim_C6_witness :
    (CSVAdapter.process_stream "a,b,c\nv\n".data ["b", "zz"] "nopk"
      (fun _ _ => "T")).result = .ok 1 := by
  have h := (claim_C6 "a,b,c\nv\n".data ["b", "zz"] "nopk" (fun _ _ => "T")
    ["a", "b", "c"] [["v"]] (by decide) (by decide) (by decide) (by decide)).1
  rw [h]
  decide

/-- Claim C9, counterexample: on a failing stream the orchestrator has
already written partial output (the header), while the shim's buffered call
writes nothing to the caller's text stream, so the shim's written text is
not the decoding of the bytes the orchestrator produces. -/
theorem claim_C9_cex :
    (obfuscate_csv_stream (some "k") "a,b\n1,2,3\n".data ["x"] "a" (some [1])
        "excel" "token" "***" 16).1 = [] ∧
    (obfuscate_stream (some "k") "a,b\n1,2,3\n".data ["x"] "csv" "a" (some [1])
        "token" "***" 16).out = "a,b\r\n".data ∧
    (obfuscate_csv_stream (some "k") "a,b\n1,2,3\n".data ["x"] "a" (some [1])
        "excel" "token" "***" 16).1 ≠
      (obfuscate_stream (some "k") "a,b\n1,2,3\n".data ["x"] "csv" "a" (some [1])
        "token" "***" 16).out := by
  exact ⟨by decide, by decide, by decide⟩

/-- Each transformed row has exactly one cell per header field. -/
theorem transformRowSpec_length (header raw sensitive : List String)
    (pk : String) (fn : Option String → String → String) :
    (transformRowSpec header raw sensitive pk fn).length = header.length := by
  simp [transformRowSpec, List.length_zip, optVals_length]

/-- Fields of any row parsed out of `\r`-free text are `\r`-free. -/
theorem csvParse_no_cr (s : List Char) (hs : '\r' ∉ s) :
    ∀ row ∈ csvParse s, ∀ f ∈ row, '\r' ∉ f.data :=
  parseAux_no_cr .startRecord [] [] s hs (by simp) (by simp)

/-- Translating the characters of `\r`-free fields is the identity. -/
theorem map_translate_id (l : List String) (h : ∀ f ∈ l, '\r' ∉ f.data) :
    l.map (fun f => (⟨translate f.data⟩ : String)) = l := by
  induction l with
  | nil => rfl
  | cons f t ih =>
    simp only [List.map_cons]
    rw [translate_id f.data (h f (by simp)), string_mk_data,
      ih (fun g hg => h g (by simp [hg]))]

/-- C2: for well-formed CSV input with header `h1..hn` and `r` data rows
(every data row as wide as the header) and a non-empty sensitive list,
`CSVAdapter.process_stream` returns `r` (the header is not counted), its
output starts with exactly the serialized input header, and re-parsing the
output yields that same header followed by exactly `r` data rows. -/
theorem claim_C2 (input : List Char) (sensitive : List String) (pk : String)
    (fn : Option String → String → String)
    (header : List String) (rest : List (List String))
    (hp : csvParse (translate input) = header :: rest)
    (hn : header ≠ []) (hnd : header.Nodup) ( _hs : sensitive ≠ [])
    (hexact : ∀ r ∈ rest, r.length = header.length) :
    (CSVAdapter.process_stream input sensitive pk fn).result = .ok rest.length ∧
    (∃ body, (CSVAdapter.process_stream input sensitive pk fn).out
      = writeRowWith crlf header ++ body) ∧
    ∃ rows2, csvParse (translate
        (CSVAdapter.process_stream input sensitive pk fn).out)
      = header :: rows2 ∧ rows2.length = rest.length := by
  have hfe : rest.filter (fun r => !r.isEmpty) = rest := by
    apply List.filter_eq_self.mpr
    intro r hr
    rcases r with _ | ⟨a, t⟩
    · exact absurd (List.length_eq_zero.mp (hexact [] hr).symm) hn
    · rfl
  have hps := process_stream_spec input sensitive pk fn header rest hp hn hnd
    (fun r hr => le_of_eq (hexact r (List.mem_of_mem_filter hr)))
  rw [hfe] at hps
  have hout : (CSVAdapter.process_stream input sensitive pk fn).out
      = (((header :: rest.map
          (fun raw => transformRowSpec header raw sensitive pk fn)).map
        (writeRowWith crlf)).flatten) := by
    rw [hps]
    show (writeRowWith crlf header :: rest.map
        (fun raw => writeRowWith crlf
          (transformRowSpec header raw sensitive pk fn))).flatten = _
    simp [List.map_map, Function.comp_def]
  refine ⟨by rw [hps], ⟨((rest.map
      (fun raw => transformRowSpec header raw sensitive pk fn)).map
        (writeRowWith crlf)).flatten, by rw [hout]; simp⟩, ?_⟩
  refine ⟨(rest.map (fun raw => transformRowSpec header raw sensitive pk fn)).map
      (fun row => row.map (fun f => (⟨translate f.data⟩ : String))), ?_, by simp⟩
  rw [hout, translate_writeAll]
  have hmm : (header :: rest.map
        (fun raw => transformRowSpec header raw sensitive pk fn)).map
      (fun row => writeRowWith ['\n']
        (row.map (fun f => (⟨translate f.data⟩ : String))))
      = (((header :: rest.map
          (fun raw => transformRowSpec header raw sensitive pk fn)).map
        (fun row => row.map (fun f => (⟨translate f.data⟩ : String)))).map
          (writeRowWith ['\n'])) := by
    simp [List.map_map, Function.comp_def]
  rw [hmm, parse_writeAllLF _ ?hne]
  case hne =>
    intro r hr
    obtain ⟨row, hrow, hre⟩ := List.mem_map.mp hr
    intro hcon
    rw [← hre] at hcon
    have hrow0 : row = [] := List.map_eq_nil_iff.mp hcon
    rcases List.mem_cons.mp hrow with h1 | h2
    · exact hn (by rw [← h1, hrow0])
    · obtain ⟨raw, _, hraw⟩ := List.mem_map.mp h2
      have := transformRowSpec_length header raw sensitive pk fn
      rw [hraw, hrow0] at this
      exact hn (List.length_eq_zero.mp this.symm)
  show (header.map (fun f => (⟨translate f.data⟩ : String))) :: _ = _
  rw [map_translate_id header
    (csvParse_no_cr (translate input) (translate_no_cr input) header
      (by rw [hp]; simp))]

theorem claim_C2_witness :
    (CSVAdapter.process_stream "a,b\nx,y\n".data ["b"] "a"
        (fun _ _ => "T")).result = .ok 1 ∧
    (∃ body, (CSVAdapter.process_stream "a,b\nx,y\n".data ["b"] "a"
        (fun _ _ => "T")).out = writeRowWith crlf ["a", "b"] ++ body) ∧
    ∃ rows2, csvParse (translate
        (CSVAdapter.process_stream "a,b\nx,y\n".data ["b"] "a"
          (fun _ _ => "T")).out)
      = ["a", "b"] :: rows2 ∧ rows2.length = 1 :=
  claim_C2 "a,b\nx,y\n".data ["b"] "a" (fun _ _ => "T") ["a", "b"] [["x", "y"]]
    (by decide) (by decide) (by decide) (by decide) (by decide)

/-- C9 (amended): when the orchestrator run with `file_format="csv"` on the
same text succeeds, the legacy shim writes exactly the decoded bytes the
orchestrator produced and returns success; when the orchestrator fails,
that failure propagates unchanged but the shim writes nothing to the
caller's output stream, whereas the orchestrator may already have produced
partial output. -/
theorem claim_C9 (env : Option String) (input : List Char)
    (sensitive_fields : List String) (primary_key_field : String)
    (key : Option (List Nat)) (csv_dialect : String) (mode : String)
    (mask_token : String) (token_length : Nat) :
    (∀ n, (obfuscate_stream env input sensitive_fields "csv" primary_key_field
          key mode mask_token token_length).result = .ok n →
      obfuscate_csv_stream env input sensitive_fields primary_key_field key
          csv_dialect mode mask_token token_length =
        ((obfuscate_stream env input sensitive_fields "csv" primary_key_field
          key mode mask_token token_length).out, .ok ())) ∧
    (∀ e, (obfuscate_stream env input sensitive_fields "csv" primary_key_field
          key mode mask_token token_length).result = .error e →
      obfuscate_csv_stream env input sensitive_fields primary_key_field key
          csv_dialect mode mask_token token_length = ([], .error e)) := by
  constructor
  · intro n h
    simp [obfuscate_csv_stream, h]
  · intro e h
    simp [obfuscate_csv_stream, h]

theorem claim_C9_witness :
    (obfuscate_stream (some "k") "a,b\nx,y\n".data [] "csv" "a" (some [1])
        "token" "***" 16).result = .ok 1 ∧
    obfuscate_csv_stream (some "k") "a,b\nx,y\n".data [] "a" (some [1])
        "excel" "token" "***" 16 =
      ((obfuscate_stream (some "k") "a,b\nx,y\n".data [] "csv" "a" (some [1])
        "token" "***" 16).out, .ok ()) :=
  ⟨by decide,
    (claim_C9 (some "k") "a,b\nx,y\n".data [] "a" (some [1]) "excel" "token"
      "***" 16).1 1 (by decide)⟩
